import Mathlib

/-!
Verification of the per-frame radar point-cloud clustering engine of the
chrono_sensor module: the DBSCAN clusterer (`src/chrono_sensor/utils/Dbscan.h`,
whose member-function bodies appear in that header as a commented-out block)
and the host-side processing filter
(`src/chrono_sensor/filters/ChFilterRadarProcess.cpp`, `Apply`).

Modelling conventions:
- `float` values (positions, velocities, intensities, epsilon) are embedded as
  rationals `ℚ`; all concrete scenarios in the specification use values whose
  float arithmetic is exact, so the idealisation is faithful there.
- `std::vector<bool>` flags become `List Bool`, `std::set<uint>` becomes a
  duplicate-free `List Nat` used only through membership, `std::queue<uint>`
  becomes a `List Nat` (front = head, push = append at the tail).
- The kd-tree (`Kdtree.h`, not among the sources) is modelled from the spec;
  see `kd_nearest_range` below.
- The `while` loop of `expandCluster` runs on explicit fuel; the fuel chosen at
  the call site provably dominates the number of iterations the C++ loop can
  make (each enqueue after the seeding inserts a fresh id into `borderset`,
  which is bounded by the number of candidates), see `expandLoop_run`.
-/

/-- Coordinate record for one candidate position (Kdtree.h `vec3f`, three
floats, embedded as rationals). -/
structure vec3f where
  x : ℚ
  y : ℚ
  z : ℚ
deriving DecidableEq, Repr

instance : Inhabited vec3f := ⟨⟨0, 0, 0⟩⟩

/-- Squared Euclidean distance between two positions. -/
def dist2 (a b : vec3f) : ℚ :=
  (a.x - b.x) ^ 2 + (a.y - b.y) ^ 2 + (a.z - b.z) ^ 2

/-- Modelled from the spec: `kd_nearest_range` of Kdtree.h is not among the
source files; per spec §4.2 the spatial index returns all indexed positions
within Euclidean distance ≤ radius (boundary inclusive) of the query point.
We return the indices of those positions (in increasing index order; the
specification leaves the order unconstrained) and compare squared distances to
avoid square roots: for a nonnegative radius, `dist ≤ eps ↔ dist2 ≤ eps ^ 2`,
and for a negative radius no point qualifies. -/
def kd_nearest_range (data : List vec3f) (v : vec3f) (eps : ℚ) : List Nat :=
  (List.range data.length).filter fun j =>
    decide (0 ≤ eps ∧ dist2 (data.getD j default) v ≤ eps ^ 2)

/-- Return code of `DBSCAN::Run` (enum `ERROR_TYPE` in Dbscan.h). -/
inductive ERROR_TYPE where
  | SUCCESS
  | FAILED
  | COUNT
deriving DecidableEq, Repr

/-- State of a `DBSCAN` object: the private members of class `DBSCAN`
(Dbscan.h lines 41-52).  The kd-tree pointer is not carried: the spatial index
is modelled functionally by `kd_nearest_range` over `data`. -/
structure DBSCAN where
  visited : List Bool
  assigned : List Bool
  borderset : List Nat
  datalen : Nat
  minpts : Nat
  epsilon : ℚ
  data : List vec3f
  clusters : List (List Nat)
  noise : List Nat
deriving Repr

namespace DBSCAN

/-- A default-constructed `DBSCAN` object: containers empty; the scalar
members are indeterminate in C++ and chosen as zero here (they are overwritten
before any use on every path that reads them). -/
def new : DBSCAN :=
  { visited := [], assigned := [], borderset := [], datalen := 0, minpts := 0,
    epsilon := 0, data := [], clusters := [], noise := [] }

/-- `DBSCAN::regionQuery` (Dbscan.h lines 125-145): query the spatial index at
the position of candidate `pid` with radius `epsilon` and keep every returned
index other than `pid` itself (`if (pid != pnpid)`). -/
def regionQuery (data : List vec3f) (eps : ℚ) (pid : Nat) : List Nat :=
  (kd_nearest_range data (data.getD pid default) eps).filter fun pnpid =>
    decide (pid ≠ pnpid)

/-- `std::set::insert`: add `pid` to the border set if not present. -/
def bsInsert (s : List Nat) (pid : Nat) : List Nat :=
  if pid ∈ s then s else pid :: s

/-- `DBSCAN::addToBorderSet` (vector overload): insert every id. -/
def addToBorderSet (s : List Nat) (pids : List Nat) : List Nat :=
  pids.foldl bsInsert s

/-- `DBSCAN::addToCluster` (Dbscan.h lines 174-177): append `pid` to cluster
`cid` and set its `assigned` flag. -/
def addToCluster (st : DBSCAN) (pid cid : Nat) : DBSCAN :=
  { st with
    clusters := st.clusters.set cid (st.clusters.getD cid [] ++ [pid])
    assigned := st.assigned.set pid true }

/-- Inner loop of `DBSCAN::expandCluster` pushing the neighbors of a freshly
added core point (Dbscan.h lines 163-168): each neighbor not yet in the border
set is pushed onto the back of the worklist and inserted into the border set. -/
def pushNeighbors (st : DBSCAN) (pidneighbors border : List Nat) :
    List Nat × DBSCAN :=
  match pidneighbors with
  | [] => (border, st)
  | pidnid :: rest =>
    if pidnid ∈ st.borderset then
      pushNeighbors st rest border
    else
      pushNeighbors { st with borderset := pidnid :: st.borderset } rest
        (border ++ [pidnid])

/-- Body of the `while (border.size() > 0)` loop of `DBSCAN::expandCluster`
(Dbscan.h lines 153-171), with explicit fuel.  A popped id that is already
visited is skipped; an unvisited one is marked visited and queried; if it has
at least `minpts` neighbors it joins cluster `cid` and its unseen neighbors
are enqueued.  All worklist ids come from `regionQuery`, hence are in range. -/
def expandLoop (fuel : Nat) (cid : Nat) (border : List Nat) (st : DBSCAN) :
    DBSCAN :=
  match fuel, border with
  | 0, _ => st
  | _ + 1, [] => st
  | fuel + 1, pid :: rest =>
    if st.visited.getD pid false then
      expandLoop fuel cid rest st
    else
      let st1 : DBSCAN := { st with visited := st.visited.set pid true }
      let pidneighbors := regionQuery st1.data st1.epsilon pid
      if st1.minpts ≤ pidneighbors.length then
        let st2 := addToCluster st1 pid cid
        let bs := pushNeighbors st2 pidneighbors rest
        expandLoop fuel cid bs.1 bs.2
      else
        expandLoop fuel cid rest st1

/-- `DBSCAN::expandCluster` (Dbscan.h lines 147-172): seed the worklist with
the seed's neighbors, record them in the border set, and run the loop.  The
fuel `datalen + neighbors.length + 1` strictly exceeds the number of pops the
C++ loop can perform (`expandLoop_run` below), so the loop runs to an empty
worklist exactly as the unbounded C++ loop does. -/
def expandCluster (st : DBSCAN) (cid : Nat) (neighbors : List Nat) : DBSCAN :=
  let st1 : DBSCAN := { st with borderset := addToBorderSet st.borderset neighbors }
  expandLoop (st.datalen + neighbors.length + 1) cid neighbors st1

/-- One iteration of the main loop of `DBSCAN::Run` (Dbscan.h lines 78-95):
clear the border set; if `pid` is unvisited, mark it visited and query its
neighborhood; with fewer than `minpts` neighbors it is left unassigned,
otherwise it seeds a new cluster which is then expanded. -/
def mainStep (st : DBSCAN) (pid : Nat) : DBSCAN :=
  let st : DBSCAN := { st with borderset := [] }
  if st.visited.getD pid false then st
  else
    let st : DBSCAN := { st with visited := st.visited.set pid true }
    let neightbors := regionQuery st.data st.epsilon pid
    if neightbors.length < st.minpts then st
    else
      let cid := st.clusters.length
      let st : DBSCAN := { st with clusters := st.clusters ++ [[]] }
      let st : DBSCAN := { st with borderset := bsInsert st.borderset pid }
      let st := addToCluster st pid cid
      expandCluster st cid neightbors

/-- `DBSCAN::Run` (Dbscan.h lines 56-107): validate (`V->size() < 1` or
`min < 1` fail; `eps` is not validated), initialise the per-run state, build
the index, run the main loop over all candidates in index order, and collect
every unassigned candidate as noise.  On failure the object's state is
untouched. -/
def Run (st0 : DBSCAN) (V : List vec3f) (eps : ℚ) (min : Nat) :
    ERROR_TYPE × DBSCAN :=
  if V.length < 1 then (ERROR_TYPE.FAILED, st0)
  else if min < 1 then (ERROR_TYPE.FAILED, st0)
  else
    let st : DBSCAN := { st0 with
      datalen := V.length
      visited := List.replicate V.length false
      assigned := List.replicate V.length false
      clusters := []
      noise := []
      minpts := min
      data := V
      epsilon := eps }
    let st := (List.range st.datalen).foldl mainStep st
    let st : DBSCAN :=
      { st with
        noise := (List.range st.datalen).filter fun pid =>
          !(st.assigned.getD pid false) }
    (ERROR_TYPE.SUCCESS, st)

/-- `DBSCAN::getClusters`. -/
def getClusters (st : DBSCAN) : List (List Nat) := st.clusters

/-- The cluster list produced by running a freshly constructed `DBSCAN` object,
as the radar filter does (`auto dbscan = DBSCAN(); dbscan.Run(...);
dbscan.getClusters()`).  The return code of `Run` is ignored there. -/
def runClusters (V : List vec3f) (eps : ℚ) (min : Nat) : List (List Nat) :=
  (Run new V eps min).2.getClusters

end DBSCAN

/-!
Host-side portion of `ChFilterRadarProcess::Apply`
(`src/chrono_sensor/filters/ChFilterRadarProcess.cpp`, lines 60-144 and
210-211).  The device kernel `cuda_radar_pointcloud_from_angles` and the
device→host copy are out of scope; the model starts from the host copy `buf`
of the frame's returns.
-/

namespace chrono
namespace sensor

/-- One radar return record (`RadarTrack`, declared in radarprocess.cuh, which
is not among the source files; the fields below are the ones `Apply` reads and
writes: position `xyz`, velocity `vel`, `intensity` and `objectID`). -/
structure RadarTrack where
  xyz : vec3f
  vel : vec3f
  intensity : ℚ
  objectID : ℤ
deriving DecidableEq, Repr

instance : Inhabited RadarTrack := ⟨⟨default, default, 0, 0⟩⟩

/-- Output fields of `SensorDeviceProcessedRadarBuffer` written by `Apply`:
the compacted record array, the counts, and the per-cluster aggregate arrays
(`std::array<float, 3>` entries embedded as `vec3f`). -/
structure ProcessedRadarBuffer where
  Buffer : List RadarTrack
  Beam_return_count : Nat
  invalid_returns : Nat
  Num_clusters : Nat
  centroids : List vec3f
  avg_velocity : List vec3f
deriving DecidableEq, Repr

/-- Componentwise sum of a list of 3-vectors (the `+=` accumulation loops of
`Apply`, lines 121-127). -/
def sumV (l : List vec3f) : vec3f :=
  l.foldl (fun a b => ⟨a.x + b.x, a.y + b.y, a.z + b.z⟩) ⟨0, 0, 0⟩

/-- Componentwise division of a 3-vector by a count (the division loop of
`Apply`, lines 131-138). -/
def divV (v : vec3f) (sz : Nat) : vec3f :=
  ⟨v.x / sz, v.y / sz, v.z / sz⟩

/-- The records of cluster `i` (0-based), looked up in the filtered buffer,
with `objectID` overwritten by `i + 1` exactly as the first aggregation loop
does (`processed_buffer[idx].objectID = i + 1`, line 118). -/
def clusterRecords (processed : List RadarTrack) (c : List Nat) (oid : ℤ) :
    List RadarTrack :=
  c.map fun idx => { processed.getD idx default with objectID := oid }

/-- Host-side body of `ChFilterRadarProcess::Apply` after the device→host
copy, parametrised by the clustering parameters it passes to `DBSCAN::Run`:
filter the frame to returns with `intensity > 0` (line 73), cluster their
positions, assign object ids cluster by cluster, accumulate and average the
per-cluster positions and velocities, and compact the output to the clustered
records only (lines 104-144). -/
def applyProcess (buf : List RadarTrack) (epsilon : ℚ) (minimum_points : Nat) :
    ProcessedRadarBuffer :=
  let processed_buffer := buf.filter fun r => decide (0 < r.intensity)
  let points := processed_buffer.map fun r => r.xyz
  let clusters := DBSCAN.runClusters points epsilon minimum_points
  let valid_returns := clusters.enum.flatMap fun ic =>
    clusterRecords processed_buffer ic.2 ((ic.1 : ℤ) + 1)
  let centroids := clusters.map fun c =>
    divV (sumV (c.map fun idx => (processed_buffer.getD idx default).xyz))
      c.length
  let avg_velocity := clusters.map fun c =>
    divV (sumV (c.map fun idx => (processed_buffer.getD idx default).vel))
      c.length
  { Buffer := valid_returns
    Beam_return_count := valid_returns.length
    invalid_returns := processed_buffer.length - valid_returns.length
    Num_clusters := clusters.length
    centroids := centroids
    avg_velocity := avg_velocity }

/-- `ChFilterRadarProcess::Apply`, host-side part: the clustering parameters
are the local constants `minimum_points = 5` and `epsilon = 1` (lines 82-83);
no configuration value reaches the call. -/
def Apply (buf : List RadarTrack) : ProcessedRadarBuffer :=
  let minimum_points : Nat := 5
  let epsilon : ℚ := 1
  applyProcess buf epsilon minimum_points

end sensor
end chrono

/-!
Specification-side predicates about a run, used to state the claims: the
geometric core/adjacency structure of a candidate set, and membership
predicates on the final clusterer state.
-/

namespace DBSCAN

/-- The state of a freshly constructed clusterer after `Run`, as the radar
filter uses it. -/
def runState (V : List vec3f) (eps : ℚ) (min : Nat) : DBSCAN :=
  (Run new V eps min).2

/-- Candidate `i` has been marked visited. -/
def Vis (st : DBSCAN) (i : Nat) : Prop := st.visited.getD i false = true

instance (st : DBSCAN) (i : Nat) : Decidable (Vis st i) := by
  unfold Vis; infer_instance

/-- Candidate `i` has been assigned to a cluster. -/
def Asg (st : DBSCAN) (i : Nat) : Prop := st.assigned.getD i false = true

instance (st : DBSCAN) (i : Nat) : Decidable (Asg st i) := by
  unfold Asg; infer_instance

/-- Candidates `i` and `j` are distinct in-range indices whose positions are
within Euclidean distance `eps` of each other (squared-distance form). -/
def Adj (V : List vec3f) (eps : ℚ) (i j : Nat) : Prop :=
  i < V.length ∧ j < V.length ∧ i ≠ j ∧ 0 ≤ eps ∧
    dist2 (V.getD i default) (V.getD j default) ≤ eps ^ 2

instance (V : List vec3f) (eps : ℚ) (i j : Nat) : Decidable (Adj V eps i j) := by
  unfold Adj; infer_instance

/-- Candidate `i` is a core point: its epsilon-neighborhood (excluding
itself) holds at least `min` neighbors. -/
def Core (V : List vec3f) (eps : ℚ) (min i : Nat) : Prop :=
  min ≤ (regionQuery V eps i).length

instance (V : List vec3f) (eps : ℚ) (min i : Nat) : Decidable (Core V eps min i) := by
  unfold Core; infer_instance

/-- One step of density reachability between core points. -/
def Edge (V : List vec3f) (eps : ℚ) (min i j : Nat) : Prop :=
  Core V eps min i ∧ Core V eps min j ∧ Adj V eps i j

/-- Density reachability: the reflexive-transitive closure of `Edge`. -/
def Reach (V : List vec3f) (eps : ℚ) (min : Nat) : Nat → Nat → Prop :=
  Relation.ReflTransGen (Edge V eps min)

/-- Candidates `i` and `j` are members of one common cluster of `st`. -/
def sameClusterIn (st : DBSCAN) (i j : Nat) : Prop :=
  ∃ (k : Nat) (c : List Nat), st.clusters[k]? = some c ∧ i ∈ c ∧ j ∈ c

/-- Invariant of the clusterer state between iterations of the main loop of
`Run` (and at its end): parameters are as installed; the flag arrays span the
candidate set; assignment implies visit and core status; a visited core point
is assigned; the clusters hold exactly the assigned candidates, each candidate
in exactly one position structure-wise; each cluster is nonempty, internally
density-connected, and closed under density reachability. -/
structure Inv (V : List vec3f) (eps : ℚ) (min : Nat) (st : DBSCAN) : Prop where
  data_eq : st.data = V
  len_eq : st.datalen = V.length
  min_eq : st.minpts = min
  eps_eq : st.epsilon = eps
  vlen : st.visited.length = V.length
  alen : st.assigned.length = V.length
  asg_vis : ∀ i, Asg st i → Vis st i
  asg_core : ∀ i, Asg st i → Core V eps min i
  vis_core_asg : ∀ i, Vis st i → Core V eps min i → Asg st i
  asg_mem : ∀ i, Asg st i ↔ ∃ (k : Nat) (c : List Nat), st.clusters[k]? = some c ∧ i ∈ c
  cl_disj : ∀ (k1 k2 : Nat) (c1 c2 : List Nat) (i : Nat),
    st.clusters[k1]? = some c1 →
    st.clusters[k2]? = some c2 → i ∈ c1 → i ∈ c2 → k1 = k2
  cl_ne : ∀ (k : Nat) (c : List Nat), st.clusters[k]? = some c → c ≠ []
  cl_conn : ∀ (k : Nat) (c : List Nat), st.clusters[k]? = some c →
    ∀ i ∈ c, ∀ j ∈ c, Reach V eps min i j
  cl_closed : ∀ (k : Nat) (c : List Nat), st.clusters[k]? = some c →
    ∀ i ∈ c, ∀ j, Core V eps min j → Adj V eps i j → j ∈ c

/-- Invariant of the worklist loop of `expandCluster` while cluster `cid` (the
last cluster) is being expanded.  Compared to `Inv`, the closure property is
restricted to the previously finished clusters, and the current cluster
instead satisfies a frontier property: every core neighbor of a member is a
member, queued, or already assigned.  The border set records the seed and
everything ever enqueued, so its elements are queued or visited. -/
structure ExpInv (V : List vec3f) (eps : ℚ) (min : Nat) (cid : Nat)
    (border : List Nat) (st : DBSCAN) : Prop where
  data_eq : st.data = V
  len_eq : st.datalen = V.length
  min_eq : st.minpts = min
  eps_eq : st.epsilon = eps
  vlen : st.visited.length = V.length
  alen : st.assigned.length = V.length
  asg_vis : ∀ i, Asg st i → Vis st i
  asg_core : ∀ i, Asg st i → Core V eps min i
  vis_core_asg : ∀ i, Vis st i → Core V eps min i → Asg st i
  asg_mem : ∀ i, Asg st i ↔ ∃ (k : Nat) (c : List Nat), st.clusters[k]? = some c ∧ i ∈ c
  cl_disj : ∀ (k1 k2 : Nat) (c1 c2 : List Nat) (i : Nat),
    st.clusters[k1]? = some c1 →
    st.clusters[k2]? = some c2 → i ∈ c1 → i ∈ c2 → k1 = k2
  cl_ne : ∀ (k : Nat) (c : List Nat), st.clusters[k]? = some c → c ≠ []
  cl_conn : ∀ (k : Nat) (c : List Nat), st.clusters[k]? = some c →
    ∀ i ∈ c, ∀ j ∈ c, Reach V eps min i j
  cid_lt : cid < st.clusters.length
  prev_closed : ∀ (k : Nat) (c : List Nat), k ≠ cid →
    st.clusters[k]? = some c → ∀ i ∈ c, ∀ j,
    Core V eps min j → Adj V eps i j → j ∈ c
  border_lt : ∀ b ∈ border, b < V.length
  border_adj : ∀ b ∈ border, ∃ u ∈ st.clusters.getD cid [], Adj V eps u b
  frontier : ∀ u ∈ st.clusters.getD cid [], ∀ v, Core V eps min v →
    Adj V eps u v → v ∈ st.clusters.getD cid [] ∨ v ∈ border ∨ Asg st v
  bs_border : ∀ w ∈ st.borderset, w ∈ border ∨ Vis st w
  bs_nodup : st.borderset.Nodup
  bs_lt : ∀ w ∈ st.borderset, w < V.length

/-- Total reindexing map induced by a bijection between the index ranges of
two candidate lists; used to state order independence of the partition. -/
def permMap {n m : Nat} (e : Fin n ≃ Fin m) (j : Nat) : Nat :=
  if h : j < n then (e ⟨j, h⟩ : Nat) else j

end DBSCAN

/-!
Basic lemmas: membership in the spatial-index query results, flag updates,
and the border set.
-/

attribute [local semireducible] Rat.add Rat.mul Rat.sub Rat.inv

namespace DBSCAN

theorem dist2_comm (a b : vec3f) : dist2 a b = dist2 b a := by
  unfold dist2; ring

theorem mem_kd_nearest_range {data : List vec3f} {v : vec3f} {eps : ℚ}
    {j : Nat} :
    j ∈ kd_nearest_range data v eps ↔
      j < data.length ∧ 0 ≤ eps ∧ dist2 (data.getD j default) v ≤ eps ^ 2 := by
  simp [kd_nearest_range, List.mem_filter, List.mem_range, and_assoc]

theorem mem_regionQuery {data : List vec3f} {eps : ℚ} {pid j : Nat} :
    j ∈ regionQuery data eps pid ↔
      j < data.length ∧ pid ≠ j ∧ 0 ≤ eps ∧
        dist2 (data.getD j default) (data.getD pid default) ≤ eps ^ 2 := by
  simp only [regionQuery, List.mem_filter, mem_kd_nearest_range,
    decide_eq_true_eq]
  tauto

theorem regionQuery_lt {data : List vec3f} {eps : ℚ} {pid j : Nat}
    (h : j ∈ regionQuery data eps pid) : j < data.length :=
  (mem_regionQuery.1 h).1

theorem Adj_symm {V : List vec3f} {eps : ℚ} {i j : Nat}
    (h : Adj V eps i j) : Adj V eps j i := by
  obtain ⟨hi, hj, hne, heps, hd⟩ := h
  exact ⟨hj, hi, Ne.symm hne, heps, by rwa [dist2_comm]⟩

theorem mem_regionQuery_iff_adj {V : List vec3f} {eps : ℚ} {pid j : Nat}
    (hpid : pid < V.length) :
    j ∈ regionQuery V eps pid ↔ Adj V eps pid j := by
  rw [mem_regionQuery]
  unfold Adj
  constructor
  · rintro ⟨hj, hne, heps, hd⟩
    exact ⟨hpid, hj, hne, heps, by rwa [dist2_comm]⟩
  · rintro ⟨_, hj, hne, heps, hd⟩
    exact ⟨hj, hne, heps, by rwa [dist2_comm]⟩

theorem Edge_symm {V : List vec3f} {eps : ℚ} {min i j : Nat}
    (h : Edge V eps min i j) : Edge V eps min j i :=
  ⟨h.2.1, h.1, Adj_symm h.2.2⟩

theorem Reach_symm {V : List vec3f} {eps : ℚ} {min i j : Nat}
    (h : Reach V eps min i j) : Reach V eps min j i := by
  induction h with
  | refl => exact Relation.ReflTransGen.refl
  | tail _ ed ih => exact Relation.ReflTransGen.head (Edge_symm ed) ih

theorem Vis_lt {st : DBSCAN} {i : Nat} (h : Vis st i) : i < st.visited.length := by
  by_contra hlt
  unfold Vis at h
  rw [List.getD_eq_getElem?_getD, List.getElem?_eq_none (by omega)] at h
  simp at h

theorem Asg_lt {st : DBSCAN} {i : Nat} (h : Asg st i) :
    i < st.assigned.length := by
  by_contra hlt
  unfold Asg at h
  rw [List.getD_eq_getElem?_getD, List.getElem?_eq_none (by omega)] at h
  simp at h

theorem Vis_set_self {l : List Bool} {i : Nat} (h : i < l.length) :
    (l.set i true).getD i false = true := by
  rw [List.getD_eq_getElem?_getD, List.getElem?_set_self h]
  rfl

theorem getD_set_ne {l : List Bool} {i j : Nat} (h : i ≠ j) :
    (l.set i true).getD j false = l.getD j false := by
  rw [List.getD_eq_getElem?_getD, List.getElem?_set_ne h,
    ← List.getD_eq_getElem?_getD]

theorem mem_bsInsert {s : List Nat} {pid w : Nat} :
    w ∈ bsInsert s pid ↔ w = pid ∨ w ∈ s := by
  unfold bsInsert
  split <;> rename_i h
  · constructor
    · exact fun hw => Or.inr hw
    · rintro (rfl | hw) <;> [exact h; exact hw]
  · simp [List.mem_cons]

theorem bsInsert_nodup {s : List Nat} {pid : Nat} (h : s.Nodup) :
    (bsInsert s pid).Nodup := by
  unfold bsInsert
  split <;> rename_i hmem
  · exact h
  · exact List.nodup_cons.2 ⟨hmem, h⟩

theorem mem_addToBorderSet {pids : List Nat} :
    ∀ {s : List Nat} {w : Nat},
      (w ∈ addToBorderSet s pids ↔ w ∈ s ∨ w ∈ pids) := by
  induction pids with
  | nil => intro s w; simp [addToBorderSet]
  | cons p rest ih =>
    intro s w
    show w ∈ addToBorderSet (bsInsert s p) rest ↔ _
    rw [ih, mem_bsInsert]
    simp [List.mem_cons]
    tauto

theorem addToBorderSet_nodup {pids : List Nat} :
    ∀ {s : List Nat}, s.Nodup → (addToBorderSet s pids).Nodup := by
  induction pids with
  | nil => intro s h; exact h
  | cons p rest ih => intro s h; exact ih (bsInsert_nodup h)

end DBSCAN

namespace DBSCAN

theorem nodup_lt_length_le {l : List Nat} {n : Nat} (hnd : l.Nodup)
    (hlt : ∀ w ∈ l, w < n) : l.length ≤ n := by
  classical
  have h1 : l.toFinset.card = l.length := List.toFinset_card_of_nodup hnd
  have h2 : l.toFinset ⊆ Finset.range n := by
    intro x hx
    rw [List.mem_toFinset] at hx
    exact Finset.mem_range.2 (hlt x hx)
  have h3 := Finset.card_le_card h2
  rw [h1, Finset.card_range] at h3
  exact h3

theorem pushNeighbors_cons (st : DBSCAN) (w : Nat) (rest border : List Nat) :
    pushNeighbors st (w :: rest) border =
      if w ∈ st.borderset then pushNeighbors st rest border
      else pushNeighbors { st with borderset := w :: st.borderset } rest
        (border ++ [w]) := by
  rfl

theorem pushNeighbors_fields (ws : List Nat) :
    ∀ (st : DBSCAN) (border : List Nat),
      (pushNeighbors st ws border).2.visited = st.visited ∧
      (pushNeighbors st ws border).2.assigned = st.assigned ∧
      (pushNeighbors st ws border).2.clusters = st.clusters ∧
      (pushNeighbors st ws border).2.data = st.data ∧
      (pushNeighbors st ws border).2.datalen = st.datalen ∧
      (pushNeighbors st ws border).2.minpts = st.minpts ∧
      (pushNeighbors st ws border).2.epsilon = st.epsilon := by
  induction ws with
  | nil => intro st border; exact ⟨rfl, rfl, rfl, rfl, rfl, rfl, rfl⟩
  | cons w rest ih =>
    intro st border
    rw [pushNeighbors_cons]
    by_cases h : w ∈ st.borderset
    · simp only [if_pos h]; exact ih st border
    · simp only [if_neg h]
      exact ih { st with borderset := w :: st.borderset } (border ++ [w])

theorem pushNeighbors_border (ws : List Nat) :
    ∀ (st : DBSCAN) (border : List Nat),
      ∃ new, (pushNeighbors st ws border).1 = border ++ new ∧
        ∀ w ∈ new, w ∈ ws := by
  induction ws with
  | nil => intro st border; exact ⟨[], (List.append_nil border).symm, by simp⟩
  | cons w rest ih =>
    intro st border
    rw [pushNeighbors_cons]
    by_cases h : w ∈ st.borderset
    · simp only [if_pos h]
      obtain ⟨new, hnew, hsub⟩ := ih st border
      exact ⟨new, hnew, fun x hx => List.mem_cons_of_mem _ (hsub x hx)⟩
    · simp only [if_neg h]
      obtain ⟨new, hnew, hsub⟩ :=
        ih { st with borderset := w :: st.borderset } (border ++ [w])
      refine ⟨w :: new, ?_, ?_⟩
      · rw [hnew]; simp
      · intro x hx
        rcases List.mem_cons.1 hx with rfl | hx
        · exact List.mem_cons_self x rest
        · exact List.mem_cons_of_mem _ (hsub x hx)

theorem pushNeighbors_bs_mono (ws : List Nat) :
    ∀ (st : DBSCAN) (border : List Nat) (w : Nat), w ∈ st.borderset →
      w ∈ (pushNeighbors st ws border).2.borderset := by
  induction ws with
  | nil => intro st border w hw; exact hw
  | cons x rest ih =>
    intro st border w hw
    rw [pushNeighbors_cons]
    by_cases h : x ∈ st.borderset
    · simp only [if_pos h]; exact ih st border w hw
    · simp only [if_neg h]
      exact ih { st with borderset := x :: st.borderset } (border ++ [x]) w
        (List.mem_cons_of_mem _ hw)

theorem pushNeighbors_bs_sub (ws : List Nat) :
    ∀ (st : DBSCAN) (border : List Nat) (w : Nat),
      w ∈ (pushNeighbors st ws border).2.borderset →
      w ∈ st.borderset ∨ w ∈ ws := by
  induction ws with
  | nil => intro st border w hw; exact Or.inl hw
  | cons x rest ih =>
    intro st border w hw
    by_cases h : x ∈ st.borderset
    · rw [show pushNeighbors st (x :: rest) border
          = pushNeighbors st rest border from by
            show (if x ∈ st.borderset then _ else _) = _; rw [if_pos h]] at hw
      rcases ih st border w hw with h1 | h1
      · exact Or.inl h1
      · exact Or.inr (List.mem_cons_of_mem _ h1)
    · rw [show pushNeighbors st (x :: rest) border
          = pushNeighbors { st with borderset := x :: st.borderset } rest
              (border ++ [x]) from by
            show (if x ∈ st.borderset then _ else _) = _; rw [if_neg h]] at hw
      rcases ih _ _ w hw with h1 | h1
      · rcases List.mem_cons.1 h1 with rfl | h2
        · exact Or.inr (List.mem_cons_self w rest)
        · exact Or.inl h2
      · exact Or.inr (List.mem_cons_of_mem _ h1)

theorem pushNeighbors_covers (ws : List Nat) :
    ∀ (st : DBSCAN) (border : List Nat) (w : Nat), w ∈ ws →
      w ∈ (pushNeighbors st ws border).1 ∨ w ∈ st.borderset := by
  induction ws with
  | nil => intro st border w hw; cases hw
  | cons x rest ih =>
    intro st border w hw
    by_cases h : x ∈ st.borderset
    · rw [show pushNeighbors st (x :: rest) border
          = pushNeighbors st rest border from by
            show (if x ∈ st.borderset then _ else _) = _; rw [if_pos h]]
      rcases List.mem_cons.1 hw with rfl | hw2
      · exact Or.inr h
      · exact ih st border w hw2
    · rw [show pushNeighbors st (x :: rest) border
          = pushNeighbors { st with borderset := x :: st.borderset } rest
              (border ++ [x]) from by
            show (if x ∈ st.borderset then _ else _) = _; rw [if_neg h]]
      rcases List.mem_cons.1 hw with rfl | hw2
      · left
        obtain ⟨new, hnew, _⟩ :=
          pushNeighbors_border rest { st with borderset := w :: st.borderset }
            (border ++ [w])
        rw [hnew]
        simp
      · rcases ih { st with borderset := x :: st.borderset } (border ++ [x])
            w hw2 with h1 | h1
        · exact Or.inl h1
        · rcases List.mem_cons.1 h1 with rfl | h2
          · left
            obtain ⟨new, hnew, _⟩ :=
              pushNeighbors_border rest
                { st with borderset := w :: st.borderset } (border ++ [w])
            rw [hnew]
            simp
          · exact Or.inr h2

theorem pushNeighbors_measure (ws : List Nat) :
    ∀ (st : DBSCAN) (border : List Nat) (n : Nat),
      st.borderset.Nodup → (∀ w ∈ st.borderset, w < n) →
      (∀ w ∈ ws, w < n) →
      (pushNeighbors st ws border).2.borderset.Nodup ∧
      (∀ w ∈ (pushNeighbors st ws border).2.borderset, w < n) ∧
      (pushNeighbors st ws border).1.length +
          (n - (pushNeighbors st ws border).2.borderset.length) ≤
        border.length + (n - st.borderset.length) := by
  induction ws with
  | nil => intro st border n h1 h2 _; exact ⟨h1, h2, le_refl _⟩
  | cons x rest ih =>
    intro st border n h1 h2 h3
    by_cases h : x ∈ st.borderset
    · rw [show pushNeighbors st (x :: rest) border
          = pushNeighbors st rest border from by
            show (if x ∈ st.borderset then _ else _) = _; rw [if_pos h]]
      exact ih st border n h1 h2 fun w hw => h3 w (List.mem_cons_of_mem _ hw)
    · rw [show pushNeighbors st (x :: rest) border
          = pushNeighbors { st with borderset := x :: st.borderset } rest
              (border ++ [x]) from by
            show (if x ∈ st.borderset then _ else _) = _; rw [if_neg h]]
      have hx : x < n := h3 x (List.mem_cons_self x rest)
      have hnd : (x :: st.borderset).Nodup := List.nodup_cons.2 ⟨h, h1⟩
      have hlt : ∀ w ∈ (x :: st.borderset), w < n := by
        intro w hw
        rcases List.mem_cons.1 hw with rfl | hw2
        · exact hx
        · exact h2 w hw2
      obtain ⟨r1, r2, r3⟩ :=
        ih { st with borderset := x :: st.borderset } (border ++ [x]) n hnd hlt
          fun w hw => h3 w (List.mem_cons_of_mem _ hw)
      refine ⟨r1, r2, ?_⟩
      have hle : st.borderset.length + 1 ≤ n := nodup_lt_length_le hnd hlt
      have hlen : (border ++ [x]).length = border.length + 1 := by simp
      rw [hlen] at r3
      show _ ≤ border.length + (n - st.borderset.length)
      have : (x :: st.borderset).length = st.borderset.length + 1 := rfl
      rw [this] at r3
      omega

end DBSCAN

namespace DBSCAN

theorem expandLoop_nil (fuel cid : Nat) (st : DBSCAN) :
    expandLoop fuel cid [] st = st := by
  cases fuel <;> rfl

theorem expandLoop_cons (fuel cid pid : Nat) (rest : List Nat) (st : DBSCAN) :
    expandLoop (fuel + 1) cid (pid :: rest) st =
      if st.visited.getD pid false then expandLoop fuel cid rest st
      else
        let st1 : DBSCAN := { st with visited := st.visited.set pid true }
        let pidneighbors := regionQuery st1.data st1.epsilon pid
        if st1.minpts ≤ pidneighbors.length then
          let st2 := addToCluster st1 pid cid
          let bs := pushNeighbors st2 pidneighbors rest
          expandLoop fuel cid bs.1 bs.2
        else expandLoop fuel cid rest st1 := by
  rfl

theorem Vis_mono_set {st : DBSCAN} {pid i : Nat} (h : Vis st i) :
    Vis { st with visited := st.visited.set pid true } i := by
  unfold Vis at h ⊢
  by_cases hip : pid = i
  · subst hip
    exact Vis_set_self (Vis_lt h)
  · rw [getD_set_ne hip]
    exact h

theorem Vis_set_pid {st : DBSCAN} {pid : Nat} (h : pid < st.visited.length) :
    Vis { st with visited := st.visited.set pid true } pid :=
  Vis_set_self h

theorem Vis_set_elim {st : DBSCAN} {pid i : Nat}
    (h : Vis { st with visited := st.visited.set pid true } i) :
    Vis st i ∨ i = pid := by
  by_cases hip : pid = i
  · exact Or.inr hip.symm
  · left
    unfold Vis at h ⊢
    rwa [getD_set_ne hip] at h

/-- Preservation of the expansion invariant when the popped id was already
visited: the loop does nothing but pop (Dbscan.h line 156 guard). -/
theorem ExpInv_skip {V : List vec3f} {eps : ℚ} {mp cid pid : Nat}
    {rest : List Nat} {st : DBSCAN}
    (h : ExpInv V eps mp cid (pid :: rest) st) (hvis : Vis st pid) :
    ExpInv V eps mp cid rest st := by
  refine ⟨h.data_eq, h.len_eq, h.min_eq, h.eps_eq, h.vlen, h.alen, h.asg_vis,
    h.asg_core, h.vis_core_asg, h.asg_mem, h.cl_disj, h.cl_ne, h.cl_conn,
    h.cid_lt, h.prev_closed, ?_, ?_, ?_, ?_, h.bs_nodup, h.bs_lt⟩
  · exact fun b hb => h.border_lt b (List.mem_cons_of_mem _ hb)
  · exact fun b hb => h.border_adj b (List.mem_cons_of_mem _ hb)
  · intro u hu v hcv hadj
    rcases h.frontier u hu v hcv hadj with h1 | h1 | h1
    · exact Or.inl h1
    · rcases List.mem_cons.1 h1 with rfl | h2
      · exact Or.inr (Or.inr (h.vis_core_asg v hvis hcv))
      · exact Or.inr (Or.inl h2)
    · exact Or.inr (Or.inr h1)
  · intro w hw
    rcases h.bs_border w hw with h1 | h1
    · rcases List.mem_cons.1 h1 with rfl | h2
      · exact Or.inr hvis
      · exact Or.inl h2
    · exact Or.inr h1

/-- Preservation of the expansion invariant when the popped id is unvisited
but not a core point: it is marked visited and dropped (Dbscan.h lines
158-161, negative branch). -/
theorem ExpInv_noncore {V : List vec3f} {eps : ℚ} {mp cid pid : Nat}
    {rest : List Nat} {st : DBSCAN}
    (h : ExpInv V eps mp cid (pid :: rest) st) (hnvis : ¬ Vis st pid)
    (hncore : ¬ Core V eps mp pid) :
    ExpInv V eps mp cid rest { st with visited := st.visited.set pid true } := by
  have hpid : pid < V.length := h.border_lt pid (List.mem_cons_self pid rest)
  have hpidv : pid < st.visited.length := by rw [h.vlen]; exact hpid
  refine ⟨h.data_eq, h.len_eq, h.min_eq, h.eps_eq, ?_, h.alen, ?_, h.asg_core,
    ?_, h.asg_mem, h.cl_disj, h.cl_ne, h.cl_conn, h.cid_lt, h.prev_closed,
    ?_, ?_, ?_, ?_, h.bs_nodup, h.bs_lt⟩
  · show (st.visited.set pid true).length = V.length
    rw [List.length_set]; exact h.vlen
  · intro i ha
    exact Vis_mono_set (h.asg_vis i ha)
  · intro i hv hc
    rcases Vis_set_elim hv with h1 | rfl
    · exact h.vis_core_asg i h1 hc
    · exact absurd hc hncore
  · exact fun b hb => h.border_lt b (List.mem_cons_of_mem _ hb)
  · exact fun b hb => h.border_adj b (List.mem_cons_of_mem _ hb)
  · intro u hu v hcv hadj
    rcases h.frontier u hu v hcv hadj with h1 | h1 | h1
    · exact Or.inl h1
    · rcases List.mem_cons.1 h1 with rfl | h2
      · exact absurd hcv hncore
      · exact Or.inr (Or.inl h2)
    · exact Or.inr (Or.inr h1)
  · intro w hw
    rcases h.bs_border w hw with h1 | h1
    · rcases List.mem_cons.1 h1 with rfl | h2
      · exact Or.inr (Vis_set_pid hpidv)
      · exact Or.inl h2
    · exact Or.inr (Vis_mono_set h1)

end DBSCAN

namespace DBSCAN

/-- Preservation of the expansion invariant when the popped id is unvisited
and a core point: it is marked visited, added to the current cluster, and its
unseen neighbors are enqueued (Dbscan.h lines 158-168, positive branch). -/
theorem ExpInv_add {V : List vec3f} {eps : ℚ} {mp cid pid : Nat}
    {rest nbrs0 : List Nat} {st : DBSCAN}
    (h : ExpInv V eps mp cid (pid :: rest) st) (hnvis : ¬ Vis st pid)
    (hcore : Core V eps mp pid)
    (hnbrs0 : nbrs0 = regionQuery V eps pid) :
    ExpInv V eps mp cid
      (pushNeighbors
        (addToCluster { st with visited := st.visited.set pid true } pid cid)
        nbrs0 rest).1
      (pushNeighbors
        (addToCluster { st with visited := st.visited.set pid true } pid cid)
        nbrs0 rest).2 := by
  subst hnbrs0
  set nbrs := regionQuery V eps pid with hnbrs_def
  set st2 := addToCluster { st with visited := st.visited.set pid true } pid cid
    with hst2_def
  set P := pushNeighbors st2 nbrs rest with hP_def
  have hpid : pid < V.length := h.border_lt pid (List.mem_cons_self pid rest)
  have hpidv : pid < st.visited.length := by rw [h.vlen]; exact hpid
  have hpida : pid < st.assigned.length := by rw [h.alen]; exact hpid
  have hnasg : ¬ Asg st pid := fun ha => hnvis (h.asg_vis pid ha)
  have hcurget : st.clusters[cid]? = some (st.clusters.getD cid []) := by
    rw [List.getD_eq_getElem st.clusters [] h.cid_lt]
    exact List.getElem?_eq_getElem h.cid_lt
  set cur := st.clusters.getD cid [] with hcur_def
  have F := pushNeighbors_fields nbrs st2 rest
  have hv' : P.2.visited = st.visited.set pid true := F.1
  have ha' : P.2.assigned = st.assigned.set pid true := F.2.1
  have hc' : P.2.clusters = st.clusters.set cid (cur ++ [pid]) := F.2.2.1
  have hd' : P.2.data = st.data := F.2.2.2.1
  have hdl' : P.2.datalen = st.datalen := F.2.2.2.2.1
  have hmp' : P.2.minpts = st.minpts := F.2.2.2.2.2.1
  have heps' : P.2.epsilon = st.epsilon := F.2.2.2.2.2.2
  have hVis' : ∀ i, Vis P.2 i ↔ (Vis st i ∨ i = pid) := by
    intro i
    unfold Vis
    rw [hv']
    constructor
    · intro hv
      by_cases hip : pid = i
      · exact Or.inr hip.symm
      · rw [getD_set_ne hip] at hv
        exact Or.inl hv
    · rintro (hv | hip)
      · by_cases hip : pid = i
        · rw [← hip]
          exact Vis_set_self hpidv
        · rw [getD_set_ne hip]
          exact hv
      · rw [hip]
        exact Vis_set_self hpidv
  have hAsg' : ∀ i, Asg P.2 i ↔ (Asg st i ∨ i = pid) := by
    intro i
    unfold Asg
    rw [ha']
    constructor
    · intro hv
      by_cases hip : pid = i
      · exact Or.inr hip.symm
      · rw [getD_set_ne hip] at hv
        exact Or.inl hv
    · rintro (hv | hip)
      · by_cases hip : pid = i
        · rw [← hip]
          exact Vis_set_self hpida
        · rw [getD_set_ne hip]
          exact hv
      · rw [hip]
        exact Vis_set_self hpida
  have hmem' : ∀ (k : Nat) (c : List Nat),
      P.2.clusters[k]? = some c ↔
        ((k = cid ∧ c = cur ++ [pid]) ∨
          (k ≠ cid ∧ st.clusters[k]? = some c)) := by
    intro k c
    rw [hc', List.getElem?_set]
    by_cases hk : cid = k
    · rw [if_pos hk, if_pos h.cid_lt]
      constructor
      · intro hsome
        exact Or.inl ⟨hk.symm, (Option.some_injective _ hsome).symm⟩
      · rintro (⟨-, hc2⟩ | ⟨hne, -⟩)
        · rw [hc2]
        · exact absurd hk.symm hne
    · rw [if_neg hk]
      constructor
      · intro hsome
        exact Or.inr ⟨fun hkc => hk hkc.symm, hsome⟩
      · rintro (⟨hkc, -⟩ | ⟨-, hsome⟩)
        · exact absurd hkc.symm hk
        · exact hsome
  have hnbrs_mem : ∀ v, v ∈ nbrs ↔ Adj V eps pid v := fun v =>
    mem_regionQuery_iff_adj hpid
  have hnbrs_lt : ∀ w ∈ nbrs, w < V.length := fun w hw => regionQuery_lt hw
  obtain ⟨new, hbsplit, hnew_sub⟩ := pushNeighbors_border nbrs st2 rest
  have hcovers : ∀ w ∈ nbrs, w ∈ P.1 ∨ w ∈ st.borderset := fun w hw =>
    pushNeighbors_covers nbrs st2 rest w hw
  have hbs_sub : ∀ w ∈ P.2.borderset, w ∈ st.borderset ∨ w ∈ nbrs := fun w hw =>
    pushNeighbors_bs_sub nbrs st2 rest w hw
  obtain ⟨hbs_nd, hbs_lt2, -⟩ :=
    pushNeighbors_measure nbrs st2 rest V.length h.bs_nodup h.bs_lt hnbrs_lt
  have hcur_asg : ∀ u ∈ cur, Asg st u := fun u hu =>
    (h.asg_mem u).2 ⟨cid, cur, hcurget, hu⟩
  have hcur_core : ∀ u ∈ cur, Core V eps mp u := fun u hu =>
    h.asg_core u (hcur_asg u hu)
  have hcur_conn := h.cl_conn cid cur hcurget
  have hreach_pid : ∀ i ∈ cur, Reach V eps mp i pid := by
    obtain ⟨u, hu, hadj⟩ := h.border_adj pid (List.mem_cons_self pid rest)
    intro i hi
    exact (hcur_conn i hi u hu).tail ⟨hcur_core u hu, hcore, hadj⟩
  have hcurP : P.2.clusters.getD cid [] = cur ++ [pid] := by
    rw [hc', List.getD_eq_getElem?_getD, List.getElem?_set, if_pos rfl,
      if_pos h.cid_lt]
    rfl
  refine ⟨?_, ?_, ?_, ?_, ?_, ?_, ?_, ?_, ?_, ?_, ?_, ?_, ?_, ?_, ?_, ?_, ?_,
    ?_, ?_, hbs_nd, hbs_lt2⟩
  · rw [hd']; exact h.data_eq
  · rw [hdl']; exact h.len_eq
  · rw [hmp']; exact h.min_eq
  · rw [heps']; exact h.eps_eq
  · rw [hv', List.length_set]; exact h.vlen
  · rw [ha', List.length_set]; exact h.alen
  · intro i ha
    rcases (hAsg' i).1 ha with h1 | h1
    · exact (hVis' i).2 (Or.inl (h.asg_vis i h1))
    · exact (hVis' i).2 (Or.inr h1)
  · intro i ha
    rcases (hAsg' i).1 ha with h1 | h1
    · exact h.asg_core i h1
    · rw [h1]; exact hcore
  · intro i hv hc
    rcases (hVis' i).1 hv with h1 | h1
    · exact (hAsg' i).2 (Or.inl (h.vis_core_asg i h1 hc))
    · exact (hAsg' i).2 (Or.inr h1)
  · intro i
    rw [hAsg' i]
    constructor
    · rintro (ha | hip)
      · obtain ⟨k, c, hk, hc⟩ := (h.asg_mem i).1 ha
        by_cases hkc : k = cid
        · refine ⟨cid, cur ++ [pid], (hmem' cid _).2 (Or.inl ⟨rfl, rfl⟩), ?_⟩
          refine List.mem_append_left _ ?_
          rw [hkc, hcurget] at hk
          exact Option.some_injective _ hk ▸ hc
        · exact ⟨k, c, (hmem' k c).2 (Or.inr ⟨hkc, hk⟩), hc⟩
      · exact ⟨cid, cur ++ [pid], (hmem' cid _).2 (Or.inl ⟨rfl, rfl⟩),
          List.mem_append_right _ (List.mem_singleton.2 hip)⟩
    · rintro ⟨k, c, hk, hc⟩
      rcases (hmem' k c).1 hk with ⟨-, hce⟩ | ⟨-, hk2⟩
      · rw [hce] at hc
        rcases List.mem_append.1 hc with h1 | h1
        · exact Or.inl (hcur_asg i h1)
        · exact Or.inr (List.mem_singleton.1 h1)
      · exact Or.inl ((h.asg_mem i).2 ⟨k, c, hk2, hc⟩)
  · intro k1 k2 c1 c2 i hk1 hk2 hi1 hi2
    rcases (hmem' k1 c1).1 hk1 with ⟨hke1, hce1⟩ | ⟨hne1, hg1⟩ <;>
      rcases (hmem' k2 c2).1 hk2 with ⟨hke2, hce2⟩ | ⟨hne2, hg2⟩
    · rw [hke1, hke2]
    · rw [hke1]
      rw [hce1] at hi1
      rcases List.mem_append.1 hi1 with h1 | h1
      · exact (h.cl_disj cid k2 cur c2 i hcurget hg2 h1 hi2)
      · exact absurd ((h.asg_mem i).2 ⟨k2, c2, hg2, hi2⟩)
          (List.mem_singleton.1 h1 ▸ hnasg)
    · rw [hke2]
      rw [hce2] at hi2
      rcases List.mem_append.1 hi2 with h1 | h1
      · exact h.cl_disj k1 cid c1 cur i hg1 hcurget hi1 h1
      · exact absurd ((h.asg_mem i).2 ⟨k1, c1, hg1, hi1⟩)
          (List.mem_singleton.1 h1 ▸ hnasg)
    · exact h.cl_disj k1 k2 c1 c2 i hg1 hg2 hi1 hi2
  · intro k c hk
    rcases (hmem' k c).1 hk with ⟨-, hce⟩ | ⟨-, hg⟩
    · rw [hce]; simp
    · exact h.cl_ne k c hg
  · intro k c hk i hi j hj
    rcases (hmem' k c).1 hk with ⟨-, hce⟩ | ⟨-, hg⟩
    · rw [hce] at hi hj
      rcases List.mem_append.1 hi with hi1 | hi1 <;>
        rcases List.mem_append.1 hj with hj1 | hj1
      · exact hcur_conn i hi1 j hj1
      · rw [List.mem_singleton.1 hj1]
        exact hreach_pid i hi1
      · rw [List.mem_singleton.1 hi1]
        exact Reach_symm (hreach_pid j hj1)
      · rw [List.mem_singleton.1 hi1, List.mem_singleton.1 hj1]
        exact Relation.ReflTransGen.refl
    · exact h.cl_conn k c hg i hi j hj
  · rw [hc', List.length_set]; exact h.cid_lt
  · intro k c hkne hk i hi j hcj hadj
    rcases (hmem' k c).1 hk with ⟨hke, -⟩ | ⟨-, hg⟩
    · exact absurd hke hkne
    · exact h.prev_closed k c hkne hg i hi j hcj hadj
  · intro b hb
    rw [hbsplit] at hb
    rcases List.mem_append.1 hb with h1 | h1
    · exact h.border_lt b (List.mem_cons_of_mem _ h1)
    · exact hnbrs_lt b (hnew_sub b h1)
  · intro b hb
    rw [hbsplit] at hb
    rw [hcurP]
    rcases List.mem_append.1 hb with h1 | h1
    · obtain ⟨u, hu, hadj⟩ := h.border_adj b (List.mem_cons_of_mem _ h1)
      exact ⟨u, List.mem_append_left _ hu, hadj⟩
    · exact ⟨pid, List.mem_append_right _ (List.mem_singleton.2 rfl),
        (hnbrs_mem b).1 (hnew_sub b h1)⟩
  · intro u hu v hcv hadj
    rw [hcurP] at hu ⊢
    rcases List.mem_append.1 hu with hu1 | hu1
    · rcases h.frontier u hu1 v hcv hadj with h1 | h1 | h1
      · exact Or.inl (List.mem_append_left _ h1)
      · rcases List.mem_cons.1 h1 with h2 | h2
        · refine Or.inl (List.mem_append_right _ ?_)
          exact List.mem_singleton.2 h2
        · refine Or.inr (Or.inl ?_)
          rw [hbsplit]
          exact List.mem_append_left _ h2
      · exact Or.inr (Or.inr ((hAsg' v).2 (Or.inl h1)))
    · rw [List.mem_singleton.1 hu1] at hadj
      have hvmem : v ∈ nbrs := (hnbrs_mem v).2 hadj
      rcases hcovers v hvmem with h1 | h1
      · exact Or.inr (Or.inl h1)
      · rcases h.bs_border v h1 with h2 | h2
        · rcases List.mem_cons.1 h2 with h3 | h3
          · exact absurd h3.symm hadj.2.2.1
          · refine Or.inr (Or.inl ?_)
            rw [hbsplit]
            exact List.mem_append_left _ h3
        · exact Or.inr (Or.inr ((hAsg' v).2
            (Or.inl (h.vis_core_asg v h2 hcv))))
  · intro w hw
    rcases hbs_sub w hw with h1 | h1
    · rcases h.bs_border w h1 with h2 | h2
      · rcases List.mem_cons.1 h2 with h3 | h3
        · exact Or.inr ((hVis' w).2 (Or.inr h3))
        · refine Or.inl ?_
          rw [hbsplit]
          exact List.mem_append_left _ h3
      · exact Or.inr ((hVis' w).2 (Or.inl h2))
    · rcases hcovers w h1 with h2 | h2
      · exact Or.inl h2
      · rcases h.bs_border w h2 with h3 | h3
        · rcases List.mem_cons.1 h3 with h4 | h4
          · exact Or.inr ((hVis' w).2 (Or.inr h4))
          · refine Or.inl ?_
            rw [hbsplit]
            exact List.mem_append_left _ h4
        · exact Or.inr ((hVis' w).2 (Or.inl h3))

end DBSCAN

namespace DBSCAN

theorem getD_true_mono {l : List Bool} {p i : Nat}
    (h : l.getD i false = true) : (l.set p true).getD i false = true := by
  by_cases hip : p = i
  · subst hip
    refine Vis_set_self ?_
    by_contra hlt
    rw [List.getD_eq_getElem?_getD, List.getElem?_eq_none (by omega)] at h
    simp at h
  · rw [getD_set_ne hip]
    exact h

theorem expandLoop_cons_skip (fuel cid pid : Nat) (rest : List Nat)
    (st : DBSCAN) (hvis : st.visited.getD pid false = true) :
    expandLoop (fuel + 1) cid (pid :: rest) st = expandLoop fuel cid rest st := by
  rw [expandLoop_cons, hvis, if_pos rfl]

theorem expandLoop_cons_noncore (fuel cid pid : Nat) (rest : List Nat)
    (st : DBSCAN) (hvis : st.visited.getD pid false = false)
    (hncore : ¬ st.minpts ≤ (regionQuery st.data st.epsilon pid).length) :
    expandLoop (fuel + 1) cid (pid :: rest) st =
      expandLoop fuel cid rest
        { st with visited := st.visited.set pid true } := by
  rw [expandLoop_cons, hvis, if_neg Bool.false_ne_true]
  dsimp only
  rw [if_neg hncore]

theorem expandLoop_cons_core (fuel cid pid : Nat) (rest : List Nat)
    (st : DBSCAN) (hvis : st.visited.getD pid false = false)
    (hcore : st.minpts ≤ (regionQuery st.data st.epsilon pid).length) :
    expandLoop (fuel + 1) cid (pid :: rest) st =
      expandLoop fuel cid
        (pushNeighbors
          (addToCluster { st with visited := st.visited.set pid true } pid cid)
          (regionQuery st.data st.epsilon pid) rest).1
        (pushNeighbors
          (addToCluster { st with visited := st.visited.set pid true } pid cid)
          (regionQuery st.data st.epsilon pid) rest).2 := by
  rw [expandLoop_cons, hvis, if_neg Bool.false_ne_true]
  dsimp only
  rw [if_pos hcore]

/-- Master lemma for the worklist loop: under the expansion invariant, with
fuel exceeding the loop measure (queue length plus border-set headroom), the
loop drains the queue, preserves the invariant, leaves every other cluster
untouched, and only grows the visited and assigned sets and the current
cluster.  In particular the fuel supplied by `expandCluster` always suffices,
so the model agrees with the unbounded C++ `while` loop. -/
theorem expandLoop_run {V : List vec3f} {eps : ℚ} {mp : Nat} :
    ∀ (fuel : Nat) (border : List Nat) (st : DBSCAN) (cid : Nat),
      ExpInv V eps mp cid border st →
      border.length + (V.length - st.borderset.length) < fuel →
      ExpInv V eps mp cid [] (expandLoop fuel cid border st) ∧
      (∀ k : Nat, k ≠ cid →
        (expandLoop fuel cid border st).clusters[k]? = st.clusters[k]?) ∧
      (∀ i, Vis st i → Vis (expandLoop fuel cid border st) i) ∧
      (∀ i, Asg st i → Asg (expandLoop fuel cid border st) i) ∧
      (∀ i, i ∈ st.clusters.getD cid [] →
        i ∈ (expandLoop fuel cid border st).clusters.getD cid []) := by
  intro fuel
  induction fuel with
  | zero =>
    intro border st cid hinv hm
    omega
  | succ f ih =>
    intro border st cid hinv hm
    cases border with
    | nil =>
      rw [expandLoop_nil]
      exact ⟨hinv, fun k _ => rfl, fun i hv => hv, fun i ha => ha,
        fun i hi => hi⟩
    | cons pid rest =>
      by_cases hvis : st.visited.getD pid false = true
      · rw [expandLoop_cons_skip f cid pid rest st hvis]
        have hinv2 := ExpInv_skip hinv hvis
        have hm2 : rest.length + (V.length - st.borderset.length) < f := by
          have : (pid :: rest).length = rest.length + 1 := rfl
          omega
        exact ih rest st cid hinv2 hm2
      · have hvf : st.visited.getD pid false = false := by
          revert hvis
          cases st.visited.getD pid false <;> simp
        have hnvis : ¬ Vis st pid := fun hv =>
          Bool.false_ne_true (hvf.symm.trans hv)
        by_cases hcore : st.minpts ≤ (regionQuery st.data st.epsilon pid).length
        · have hcoreV : Core V eps mp pid := by
            unfold Core
            rw [← hinv.data_eq, ← hinv.eps_eq, ← hinv.min_eq]
            exact hcore
          have heq := expandLoop_cons_core f cid pid rest st hvf hcore
          rw [heq]
          set nbrs := regionQuery st.data st.epsilon pid with hnbrs
          have hnbrsV : nbrs = regionQuery V eps pid := by
            rw [hnbrs, hinv.data_eq, hinv.eps_eq]
          set st2 := addToCluster
            { st with visited := st.visited.set pid true } pid cid with hst2
          set P := pushNeighbors st2 nbrs rest with hP
          have hinv2 : ExpInv V eps mp cid P.1 P.2 :=
            ExpInv_add hinv hnvis hcoreV hnbrsV
          have F := pushNeighbors_fields nbrs st2 rest
          have hnbrs_lt : ∀ w ∈ nbrs, w < V.length := by
            intro w hw
            rw [hnbrsV] at hw
            exact regionQuery_lt hw
          have hbs2 : st2.borderset = st.borderset := rfl
          obtain ⟨-, -, hmle⟩ :=
            pushNeighbors_measure nbrs st2 rest V.length
              (hbs2 ▸ hinv.bs_nodup) (hbs2 ▸ hinv.bs_lt) hnbrs_lt
          rw [← hP, hbs2] at hmle
          have hm2 : P.1.length + (V.length - P.2.borderset.length) < f := by
            have h1 : (pid :: rest).length = rest.length + 1 := rfl
            omega
          obtain ⟨r1, r2, r3, r4, r5⟩ := ih P.1 P.2 cid hinv2 hm2
          rw [← hP] at F
          refine ⟨r1, ?_, ?_, ?_, ?_⟩
          · intro k hk
            rw [r2 k hk, F.2.2.1]
            exact List.getElem?_set_ne fun hh => hk hh.symm
          · intro i hv
            refine r3 i ?_
            unfold Vis at hv ⊢
            rw [F.1]
            exact getD_true_mono hv
          · intro i ha
            refine r4 i ?_
            unfold Asg at ha ⊢
            rw [F.2.1]
            exact getD_true_mono ha
          · intro i hi
            refine r5 i ?_
            have hcurP : P.2.clusters.getD cid [] =
                st.clusters.getD cid [] ++ [pid] := by
              rw [F.2.2.1]
              show (st.clusters.set cid
                (st.clusters.getD cid [] ++ [pid])).getD cid [] = _
              rw [List.getD_eq_getElem?_getD, List.getElem?_set,
                if_pos rfl, if_pos hinv.cid_lt]
              rfl
            rw [hcurP]
            exact List.mem_append_left _ hi
        · have hncoreV : ¬ Core V eps mp pid := by
            unfold Core
            rw [← hinv.data_eq, ← hinv.eps_eq, ← hinv.min_eq]
            exact hcore
          rw [expandLoop_cons_noncore f cid pid rest st hvf hcore]
          have hinv2 := ExpInv_noncore hinv hnvis hncoreV
          have hm2 : rest.length + (V.length -
              ({ st with visited := st.visited.set pid true } :
                DBSCAN).borderset.length) < f := by
            have h1 : (pid :: rest).length = rest.length + 1 := rfl
            have h2 : ({ st with visited := st.visited.set pid true } :
                DBSCAN).borderset = st.borderset := rfl
            rw [h2]
            omega
          obtain ⟨r1, r2, r3, r4, r5⟩ := ih rest
            { st with visited := st.visited.set pid true } cid hinv2 hm2
          refine ⟨r1, ?_, ?_, ?_, ?_⟩
          · intro k hk
            exact r2 k hk
          · intro i hv
            exact r3 i (Vis_mono_set hv)
          · intro i ha
            exact r4 i ha
          · intro i hi
            exact r5 i hi

end DBSCAN

namespace DBSCAN

theorem set_concat {α : Type} (l : List α) (x y : α) :
    (l ++ [x]).set l.length y = l ++ [y] := by
  induction l with
  | nil => rfl
  | cons a t ih =>
    show a :: (t ++ [x]).set t.length y = a :: (t ++ [y])
    rw [ih]

theorem replicate_getD_false {n i : Nat} :
    (List.replicate n false).getD i false = false := by
  rw [List.getD_eq_getElem?_getD]
  by_cases h : i < n
  · rw [List.getElem?_eq_getElem (by simpa using h)]
    simp
  · rw [List.getElem?_eq_none (by simpa using h)]
    rfl

theorem expandCluster_eq (st : DBSCAN) (cid : Nat) (neighbors : List Nat) :
    expandCluster st cid neighbors =
      expandLoop (st.datalen + neighbors.length + 1) cid neighbors
        { st with borderset := addToBorderSet st.borderset neighbors } := rfl

theorem mainStep_visited (st : DBSCAN) (pid : Nat)
    (h : st.visited.getD pid false = true) :
    mainStep st pid = { st with borderset := [] } := by
  unfold mainStep
  dsimp only
  rw [h, if_pos rfl]

theorem mainStep_noncore (st : DBSCAN) (pid : Nat)
    (h : st.visited.getD pid false = false)
    (hncore : (regionQuery st.data st.epsilon pid).length < st.minpts) :
    mainStep st pid =
      { st with
        borderset := []
        visited := st.visited.set pid true } := by
  unfold mainStep
  dsimp only
  rw [h, if_neg Bool.false_ne_true]
  rw [if_pos hncore]

theorem mainStep_core (st : DBSCAN) (pid : Nat)
    (h : st.visited.getD pid false = false)
    (hcore : ¬ (regionQuery st.data st.epsilon pid).length < st.minpts) :
    mainStep st pid =
      expandCluster
        (addToCluster
          { st with
            borderset := bsInsert ([] : List Nat) pid
            visited := st.visited.set pid true
            clusters := st.clusters ++ [[]] }
          pid st.clusters.length)
        st.clusters.length (regionQuery st.data st.epsilon pid) := by
  unfold mainStep
  dsimp only
  rw [h, if_neg Bool.false_ne_true]
  rw [if_neg hcore]

end DBSCAN

namespace DBSCAN

theorem getD_set_true_iff {l : List Bool} {p i : Nat} (hp : p < l.length) :
    ((l.set p true).getD i false = true ↔ (l.getD i false = true ∨ i = p)) := by
  by_cases hip : p = i
  · subst hip
    rw [Vis_set_self hp]
    simp
  · rw [getD_set_ne hip]
    constructor
    · exact fun h => Or.inl h
    · rintro (h | h)
      · exact h
      · exact absurd h.symm hip

/-- When the worklist is empty the frontier property upgrades to full closure:
the state satisfies the main-loop invariant. -/
theorem Inv_of_ExpInv_final {V : List vec3f} {eps : ℚ} {mp cid : Nat}
    {st : DBSCAN} (h : ExpInv V eps mp cid [] st) : Inv V eps mp st := by
  refine ⟨h.data_eq, h.len_eq, h.min_eq, h.eps_eq, h.vlen, h.alen, h.asg_vis,
    h.asg_core, h.vis_core_asg, h.asg_mem, h.cl_disj, h.cl_ne, h.cl_conn, ?_⟩
  intro k c hk i hi j hcj hadj
  by_cases hkc : k = cid
  · have hcur : st.clusters.getD cid [] = c := by
      rw [List.getD_eq_getElem?_getD, ← hkc, hk]
      rfl
    rcases h.frontier i (by rw [hcur]; exact hi) j hcj hadj with h1 | h1 | h1
    · rw [hcur] at h1
      exact h1
    · cases h1
    · obtain ⟨k2, c2, hk2, hj2⟩ := (h.asg_mem j).1 h1
      by_cases hk2c : k2 = cid
      · have hceq : c2 = c := by
          rw [hk2c] at hk2
          rw [hkc] at hk
          exact Option.some_injective _ (hk2.symm.trans hk)
        rw [← hceq]
        exact hj2
      · have hic : Core V eps mp i :=
          h.asg_core i ((h.asg_mem i).2 ⟨k, c, hk, hi⟩)
        have hii : i ∈ c2 :=
          h.prev_closed k2 c2 hk2c hk2 j hj2 i hic (Adj_symm hadj)
        have hkk : k2 = k := h.cl_disj k2 k c2 c i hk2 hk hii hi
        exact absurd (hkk.trans hkc) hk2c
  · exact h.prev_closed k c hkc hk i hi j hcj hadj

/-- One main-loop iteration preserves the invariant, marks the processed
candidate visited, and only grows the visited and assigned sets. -/
theorem mainStep_inv {V : List vec3f} {eps : ℚ} {mp : Nat} {st : DBSCAN}
    {pid : Nat} (hinv : Inv V eps mp st) (hpid : pid < V.length) :
    Inv V eps mp (mainStep st pid) ∧ Vis (mainStep st pid) pid ∧
    (∀ i, Vis st i → Vis (mainStep st pid) i) ∧
    (∀ i, Asg st i → Asg (mainStep st pid) i) := by
  have hpidv : pid < st.visited.length := by rw [hinv.vlen]; exact hpid
  have hpida : pid < st.assigned.length := by rw [hinv.alen]; exact hpid
  by_cases hvis : st.visited.getD pid false = true
  · rw [mainStep_visited st pid hvis]
    exact ⟨⟨hinv.data_eq, hinv.len_eq, hinv.min_eq, hinv.eps_eq, hinv.vlen,
      hinv.alen, hinv.asg_vis, hinv.asg_core, hinv.vis_core_asg, hinv.asg_mem,
      hinv.cl_disj, hinv.cl_ne, hinv.cl_conn, hinv.cl_closed⟩, hvis,
      fun i hv => hv, fun i ha => ha⟩
  · have hvf : st.visited.getD pid false = false := by
      revert hvis
      cases st.visited.getD pid false <;> simp
    have hnvis : ¬ Vis st pid := fun hv => Bool.false_ne_true (hvf.symm.trans hv)
    by_cases hcore : (regionQuery st.data st.epsilon pid).length < st.minpts
    · rw [mainStep_noncore st pid hvf hcore]
      have hncore : ¬ Core V eps mp pid := by
        unfold Core
        rw [← hinv.data_eq, ← hinv.eps_eq, ← hinv.min_eq]
        omega
      refine ⟨⟨hinv.data_eq, hinv.len_eq, hinv.min_eq, hinv.eps_eq, ?_,
        hinv.alen, ?_, hinv.asg_core, ?_, hinv.asg_mem, hinv.cl_disj,
        hinv.cl_ne, hinv.cl_conn, hinv.cl_closed⟩, ?_, ?_, ?_⟩
      · show (st.visited.set pid true).length = V.length
        rw [List.length_set]
        exact hinv.vlen
      · intro i ha
        show (st.visited.set pid true).getD i false = true
        exact getD_true_mono (hinv.asg_vis i ha)
      · intro i hv hc
        rcases (getD_set_true_iff hpidv).1 hv with h1 | h1
        · exact hinv.vis_core_asg i h1 hc
        · rw [h1] at hc
          exact absurd hc hncore
      · exact Vis_set_self hpidv
      · intro i hv
        exact getD_true_mono hv
      · exact fun i ha => ha
    · rw [mainStep_core st pid hvf hcore, expandCluster_eq]
      have hcoreV : Core V eps mp pid := by
        unfold Core
        rw [← hinv.data_eq, ← hinv.eps_eq, ← hinv.min_eq]
        omega
      set cid := st.clusters.length with hcid
      set nbrs := regionQuery st.data st.epsilon pid with hnbrs
      have hnbrsV : nbrs = regionQuery V eps pid := by
        rw [hnbrs, hinv.data_eq, hinv.eps_eq]
      have hnbrs_lt : ∀ w ∈ nbrs, w < V.length := by
        intro w hw
        rw [hnbrsV] at hw
        exact regionQuery_lt hw
      set stA : DBSCAN := { st with
        borderset := bsInsert ([] : List Nat) pid
        visited := st.visited.set pid true
        clusters := st.clusters ++ [[]] } with hstA
      set st5 := addToCluster stA pid cid with hst5
      set stE : DBSCAN :=
        { st5 with borderset := addToBorderSet st5.borderset nbrs } with hstE
      have hgetDnil : (st.clusters ++ [[]]).getD cid [] = ([] : List Nat) := by
        rw [List.getD_eq_getElem?_getD, hcid, List.getElem?_concat_length]
        rfl
      have hclE : stE.clusters = st.clusters ++ [[pid]] := by
        show (st.clusters ++ [[]]).set cid
          ((st.clusters ++ [[]]).getD cid [] ++ [pid]) = _
        rw [hgetDnil, hcid]
        exact set_concat st.clusters [] [pid]
      have hcurE : stE.clusters.getD cid [] = [pid] := by
        rw [hclE, List.getD_eq_getElem?_getD, hcid,
          List.getElem?_concat_length]
        rfl
      have hmemE : ∀ (k : Nat) (c : List Nat),
          stE.clusters[k]? = some c ↔
            ((k = cid ∧ c = [pid]) ∨ (k ≠ cid ∧ st.clusters[k]? = some c)) := by
        intro k c
        rw [hclE, List.getElem?_append]
        by_cases hk : k < st.clusters.length
        · rw [if_pos hk]
          constructor
          · intro hs
            exact Or.inr ⟨by omega, hs⟩
          · rintro (⟨hke, -⟩ | ⟨-, hs⟩)
            · omega
            · exact hs
        · rw [if_neg hk]
          by_cases hke : k = cid
          · rw [hke, hcid, Nat.sub_self]
            constructor
            · intro hs
              have : [pid] = c := by
                have h2 : ([[pid]] : List (List Nat))[0]? = some [pid] := rfl
                rw [h2] at hs
                exact Option.some_injective _ hs
              exact Or.inl ⟨rfl, this.symm⟩
            · rintro (⟨-, hc⟩ | ⟨hne, -⟩)
              · rw [hc]
                rfl
              · exact absurd rfl hne
          · have h1 : st.clusters.length + 1 ≤ k := by
              rw [hcid] at hke
              omega
            have h2 : ([[pid]] : List (List Nat))[k - st.clusters.length]? =
                none := by
              apply List.getElem?_eq_none
              simp
              omega
            rw [h2]
            constructor
            · intro hs
              cases hs
            · rintro (⟨hke2, -⟩ | ⟨-, hs⟩)
              · exact absurd hke2 hke
              · rw [List.getElem?_eq_none
                  (show st.clusters.length ≤ k by omega)] at hs
                cases hs
      have hVisE : ∀ i, Vis stE i ↔ (Vis st i ∨ i = pid) := fun i =>
        getD_set_true_iff hpidv
      have hAsgE : ∀ i, Asg stE i ↔ (Asg st i ∨ i = pid) := fun i =>
        getD_set_true_iff hpida
      have hExpE : ExpInv V eps mp cid nbrs stE := by
        refine ⟨hinv.data_eq, hinv.len_eq, hinv.min_eq, hinv.eps_eq, ?_, ?_,
          ?_, ?_, ?_, ?_, ?_, ?_, ?_, ?_, ?_, ?_, ?_, ?_, ?_, ?_, ?_⟩
        · show (st.visited.set pid true).length = V.length
          rw [List.length_set]
          exact hinv.vlen
        · show (st.assigned.set pid true).length = V.length
          rw [List.length_set]
          exact hinv.alen
        · intro i ha
          rcases (hAsgE i).1 ha with h1 | h1
          · exact (hVisE i).2 (Or.inl (hinv.asg_vis i h1))
          · exact (hVisE i).2 (Or.inr h1)
        · intro i ha
          rcases (hAsgE i).1 ha with h1 | h1
          · exact hinv.asg_core i h1
          · rw [h1]
            exact hcoreV
        · intro i hv hc
          rcases (hVisE i).1 hv with h1 | h1
          · exact (hAsgE i).2 (Or.inl (hinv.vis_core_asg i h1 hc))
          · exact (hAsgE i).2 (Or.inr h1)
        · intro i
          rw [hAsgE i]
          constructor
          · rintro (ha | hip)
            · obtain ⟨k, c, hk, hc⟩ := (hinv.asg_mem i).1 ha
              have hklt : k < st.clusters.length := by
                rcases List.getElem?_eq_some.1 hk with ⟨hlt, -⟩
                exact hlt
              exact ⟨k, c, (hmemE k c).2 (Or.inr ⟨by omega, hk⟩), hc⟩
            · exact ⟨cid, [pid], (hmemE cid [pid]).2 (Or.inl ⟨rfl, rfl⟩),
                by rw [hip]; exact List.mem_singleton.2 rfl⟩
          · rintro ⟨k, c, hk, hc⟩
            rcases (hmemE k c).1 hk with ⟨-, hce⟩ | ⟨-, hk2⟩
            · rw [hce] at hc
              exact Or.inr (List.mem_singleton.1 hc)
            · exact Or.inl ((hinv.asg_mem i).2 ⟨k, c, hk2, hc⟩)
        · intro k1 k2 c1 c2 i hk1 hk2 hi1 hi2
          rcases (hmemE k1 c1).1 hk1 with ⟨hke1, hce1⟩ | ⟨hne1, hg1⟩ <;>
            rcases (hmemE k2 c2).1 hk2 with ⟨hke2, hce2⟩ | ⟨hne2, hg2⟩
          · rw [hke1, hke2]
          · rw [hce1] at hi1
            have : i = pid := List.mem_singleton.1 hi1
            rw [this] at hi2
            exact absurd ((hinv.asg_mem pid).2 ⟨k2, c2, hg2, hi2⟩)
              fun ha => hnvis (hinv.asg_vis pid ha)
          · rw [hce2] at hi2
            have : i = pid := List.mem_singleton.1 hi2
            rw [this] at hi1
            exact absurd ((hinv.asg_mem pid).2 ⟨k1, c1, hg1, hi1⟩)
              fun ha => hnvis (hinv.asg_vis pid ha)
          · exact hinv.cl_disj k1 k2 c1 c2 i hg1 hg2 hi1 hi2
        · intro k c hk
          rcases (hmemE k c).1 hk with ⟨-, hce⟩ | ⟨-, hg⟩
          · rw [hce]
            simp
          · exact hinv.cl_ne k c hg
        · intro k c hk i hi j hj
          rcases (hmemE k c).1 hk with ⟨-, hce⟩ | ⟨-, hg⟩
          · rw [hce] at hi hj
            rw [List.mem_singleton.1 hi, List.mem_singleton.1 hj]
            exact Relation.ReflTransGen.refl
          · exact hinv.cl_conn k c hg i hi j hj
        · show cid < stE.clusters.length
          rw [hclE]
          simp [hcid]
        · intro k c hkne hk i hi j hcj hadj
          rcases (hmemE k c).1 hk with ⟨hke, -⟩ | ⟨-, hg⟩
          · exact absurd hke hkne
          · exact hinv.cl_closed k c hg i hi j hcj hadj
        · exact hnbrs_lt
        · intro b hb
          rw [hcurE]
          refine ⟨pid, List.mem_singleton.2 rfl, ?_⟩
          rw [hnbrsV] at hb
          exact (mem_regionQuery_iff_adj hpid).1 hb
        · intro u hu v hcv hadj
          rw [hcurE] at hu
          rw [List.mem_singleton.1 hu] at hadj
          refine Or.inr (Or.inl ?_)
          rw [hnbrsV]
          exact (mem_regionQuery_iff_adj hpid).2 hadj
        · intro w hw
          have hbs5 : st5.borderset = bsInsert ([] : List Nat) pid := rfl
          rcases mem_addToBorderSet.1 hw with h1 | h1
          · rw [hbs5] at h1
            rcases mem_bsInsert.1 h1 with h2 | h2
            · refine Or.inr ?_
              rw [h2]
              exact (hVisE pid).2 (Or.inr rfl)
            · cases h2
          · exact Or.inl h1
        · have hbs5 : st5.borderset = bsInsert ([] : List Nat) pid := rfl
          show (addToBorderSet st5.borderset nbrs).Nodup
          rw [hbs5]
          exact addToBorderSet_nodup (bsInsert_nodup List.nodup_nil)
        · intro w hw
          have hbs5 : st5.borderset = bsInsert ([] : List Nat) pid := rfl
          rcases mem_addToBorderSet.1 hw with h1 | h1
          · rw [hbs5] at h1
            rcases mem_bsInsert.1 h1 with h2 | h2
            · rw [h2]
              exact hpid
            · cases h2
          · exact hnbrs_lt w h1
      have hfuel : nbrs.length + (V.length - stE.borderset.length) <
          st5.datalen + nbrs.length + 1 := by
        have h1 : st5.datalen = st.datalen := rfl
        rw [h1, hinv.len_eq]
        omega
      obtain ⟨r1, r2, r3, r4, r5⟩ :=
        expandLoop_run (st5.datalen + nbrs.length + 1) nbrs stE cid hExpE hfuel
      refine ⟨Inv_of_ExpInv_final r1, ?_, ?_, ?_⟩
      · exact r3 pid ((hVisE pid).2 (Or.inr rfl))
      · intro i hv
        exact r3 i ((hVisE i).2 (Or.inl hv))
      · intro i ha
        exact r4 i ((hAsgE i).2 (Or.inl ha))

end DBSCAN

namespace DBSCAN

theorem foldl_mainStep_inv {V : List vec3f} {eps : ℚ} {mp : Nat} :
    ∀ (l : List Nat) (st : DBSCAN), Inv V eps mp st →
      (∀ p ∈ l, p < V.length) →
      Inv V eps mp (l.foldl mainStep st) ∧
      (∀ p ∈ l, Vis (l.foldl mainStep st) p) ∧
      (∀ i, Vis st i → Vis (l.foldl mainStep st) i) ∧
      (∀ i, Asg st i → Asg (l.foldl mainStep st) i) := by
  intro l
  induction l with
  | nil =>
    intro st h hl
    exact ⟨h, by simp, fun i hv => hv, fun i ha => ha⟩
  | cons p rest ih =>
    intro st h hl
    have hp : p < V.length := hl p (List.mem_cons_self p rest)
    obtain ⟨h1, h2, h3, h4⟩ := mainStep_inv h hp
    obtain ⟨r1, r2, r3, r4⟩ := ih (mainStep st p) h1
      fun q hq => hl q (List.mem_cons_of_mem _ hq)
    refine ⟨r1, ?_, fun i hv => r3 i (h3 i hv), fun i ha => r4 i (h4 i ha)⟩
    intro q hq
    rcases List.mem_cons.1 hq with rfl | hq2
    · exact r3 q h2
    · exact r2 q hq2

theorem Inv_init {V : List vec3f} {eps : ℚ} {mp : Nat} (st0 : DBSCAN) :
    Inv V eps mp { st0 with
      datalen := V.length
      visited := List.replicate V.length false
      assigned := List.replicate V.length false
      clusters := []
      noise := []
      minpts := mp
      data := V
      epsilon := eps } := by
  refine ⟨rfl, rfl, rfl, rfl, by simp, by simp, ?_, ?_, ?_, ?_, ?_, ?_, ?_, ?_⟩
  · intro i ha
    exact absurd (replicate_getD_false.symm.trans ha) (by simp)
  · intro i ha
    exact absurd (replicate_getD_false.symm.trans ha) (by simp)
  · intro i hv
    exact absurd (replicate_getD_false.symm.trans hv) (by simp)
  · intro i
    constructor
    · intro ha
      exact absurd (replicate_getD_false.symm.trans ha) (by simp)
    · rintro ⟨k, c, hk, -⟩
      simp at hk
  · intro k1 k2 c1 c2 i hk1 hk2 hi1 hi2
    simp at hk1
  · intro k c hk
    simp at hk
  · intro k c hk
    simp at hk
  · intro k c hk
    simp at hk

theorem runState_eq_fail₁ {V : List vec3f} {eps : ℚ} {mp : Nat}
    (h : V.length < 1) : runState V eps mp = new := by
  unfold runState Run
  rw [if_pos h]

theorem runState_eq_fail₂ {V : List vec3f} {eps : ℚ} {mp : Nat}
    (h2 : mp < 1) : runState V eps mp = new := by
  unfold runState Run
  by_cases h : V.length < 1
  · rw [if_pos h]
  · rw [if_neg h, if_pos h2]

theorem runState_success {V : List vec3f} {eps : ℚ} {mp : Nat}
    (hV : ¬ V.length < 1) (hmp : ¬ mp < 1) :
    Inv V eps mp (runState V eps mp) ∧
    (∀ i, i < V.length → Vis (runState V eps mp) i) ∧
    (∀ i, i ∈ (runState V eps mp).noise ↔
      (i < V.length ∧ ¬ Asg (runState V eps mp) i)) := by
  unfold runState Run
  rw [if_neg hV, if_neg hmp]
  dsimp only
  obtain ⟨r1, r2, r3, r4⟩ :=
    foldl_mainStep_inv
      (List.range V.length)
      { new with
        datalen := V.length
        visited := List.replicate V.length false
        assigned := List.replicate V.length false
        clusters := []
        noise := []
        minpts := mp
        data := V
        epsilon := eps }
      (Inv_init new)
      (by intro p hp; exact List.mem_range.1 hp)
  refine ⟨⟨r1.data_eq, r1.len_eq, r1.min_eq, r1.eps_eq, r1.vlen, r1.alen,
    r1.asg_vis, r1.asg_core, r1.vis_core_asg, r1.asg_mem, r1.cl_disj,
    r1.cl_ne, r1.cl_conn, r1.cl_closed⟩, ?_, ?_⟩
  · intro i hi
    exact r2 i (List.mem_range.2 hi)
  · intro i
    show i ∈ List.filter _ (List.range _) ↔ _
    rw [List.mem_filter, List.mem_range, r1.len_eq]
    constructor
    · rintro ⟨h1, h2⟩
      refine ⟨h1, fun ha => ?_⟩
      rw [ha] at h2
      simp at h2
    · rintro ⟨h1, h2⟩
      refine ⟨h1, ?_⟩
      show (!_) = true
      rw [Bool.not_eq_true']
      revert h2
      unfold Asg
      cases (List.foldl mainStep _ (List.range V.length)).assigned.getD i false
      · intro _
        rfl
      · intro h2
        exact absurd rfl h2

end DBSCAN

namespace DBSCAN

theorem runState_asg_iff {V : List vec3f} {eps : ℚ} {mp i : Nat}
    (hmp : 1 ≤ mp) :
    Asg (runState V eps mp) i ↔ (i < V.length ∧ Core V eps mp i) := by
  by_cases hV : V.length < 1
  · rw [runState_eq_fail₁ hV]
    constructor
    · intro ha
      exact absurd ha (by intro h; exact Bool.false_ne_true h)
    · rintro ⟨hi, -⟩
      omega
  · have hmp2 : ¬ mp < 1 := by omega
    obtain ⟨r1, r2, -⟩ := runState_success hV hmp2
    constructor
    · intro ha
      have hlt : i < V.length := by
        have h1 := Asg_lt ha
        rwa [r1.alen] at h1
      exact ⟨hlt, r1.asg_core i ha⟩
    · rintro ⟨hi, hc⟩
      exact r1.vis_core_asg i (r2 i hi) hc

theorem runState_mem_cluster_iff {V : List vec3f} {eps : ℚ} {mp i : Nat}
    (hmp : 1 ≤ mp) :
    (∃ (k : Nat) (c : List Nat),
        (runState V eps mp).clusters[k]? = some c ∧ i ∈ c) ↔
      (i < V.length ∧ Core V eps mp i) := by
  by_cases hV : V.length < 1
  · rw [runState_eq_fail₁ hV]
    constructor
    · rintro ⟨k, c, hk, -⟩
      simp [new] at hk
    · rintro ⟨hi, -⟩
      omega
  · have hmp2 : ¬ mp < 1 := by omega
    obtain ⟨r1, -, -⟩ := runState_success hV hmp2
    exact (r1.asg_mem i).symm.trans (runState_asg_iff hmp)

theorem runState_noise_iff {V : List vec3f} {eps : ℚ} {mp i : Nat}
    (hmp : 1 ≤ mp) :
    i ∈ (runState V eps mp).noise ↔ (i < V.length ∧ ¬ Core V eps mp i) := by
  by_cases hV : V.length < 1
  · rw [runState_eq_fail₁ hV]
    constructor
    · intro h
      cases h
    · rintro ⟨hi, -⟩
      omega
  · have hmp2 : ¬ mp < 1 := by omega
    obtain ⟨r1, r2, r3⟩ := runState_success hV hmp2
    rw [r3 i]
    constructor
    · rintro ⟨hi, hna⟩
      exact ⟨hi, fun hc => hna (r1.vis_core_asg i (r2 i hi) hc)⟩
    · rintro ⟨hi, hnc⟩
      exact ⟨hi, fun ha => hnc (r1.asg_core i ha)⟩

theorem runState_sameCluster_iff {V : List vec3f} {eps : ℚ} {mp i j : Nat}
    (hmp : 1 ≤ mp) :
    sameClusterIn (runState V eps mp) i j ↔
      (i < V.length ∧ j < V.length ∧ Core V eps mp i ∧ Core V eps mp j ∧
        Reach V eps mp i j) := by
  by_cases hV : V.length < 1
  · rw [runState_eq_fail₁ hV]
    constructor
    · rintro ⟨k, c, hk, -⟩
      simp [new] at hk
    · rintro ⟨hi, -⟩
      omega
  · have hmp2 : ¬ mp < 1 := by omega
    obtain ⟨r1, r2, -⟩ := runState_success hV hmp2
    constructor
    · rintro ⟨k, c, hk, hi, hj⟩
      have hai : Asg (runState V eps mp) i := (r1.asg_mem i).2 ⟨k, c, hk, hi⟩
      have haj : Asg (runState V eps mp) j := (r1.asg_mem j).2 ⟨k, c, hk, hj⟩
      have h1 := (runState_asg_iff hmp).1 hai
      have h2 := (runState_asg_iff hmp).1 haj
      exact ⟨h1.1, h2.1, h1.2, h2.2, r1.cl_conn k c hk i hi j hj⟩
    · rintro ⟨hi, hj, hci, hcj, hr⟩
      have hai : Asg (runState V eps mp) i :=
        (runState_asg_iff hmp).2 ⟨hi, hci⟩
      obtain ⟨k, c, hk, hic⟩ := (r1.asg_mem i).1 hai
      refine ⟨k, c, hk, hic, ?_⟩
      clear hj hcj
      induction hr with
      | refl => exact hic
      | tail hr e ihh =>
        exact r1.cl_closed k c hk _ ihh _ e.2.1 e.2.2

end DBSCAN

/-!
Transport of the geometric predicates along a reindexing of the candidate
list: the core/adjacency/reachability structure depends only on the multiset
of positions, so the final partition is order independent.
-/

namespace DBSCAN

theorem permMap_lt {n m : Nat} (e : Fin n ≃ Fin m) {j : Nat} (h : j < n) :
    permMap e j < m := by
  unfold permMap
  rw [dif_pos h]
  exact (e ⟨j, h⟩).isLt

theorem permMap_getD {W V : List vec3f} (e : Fin W.length ≃ Fin V.length)
    (he : ∀ k : Fin W.length, W.get k = V.get (e k)) {j : Nat}
    (h : j < W.length) :
    W.getD j default = V.getD (permMap e j) default := by
  unfold permMap
  rw [dif_pos h]
  rw [List.getD_eq_getElem W default h,
    List.getD_eq_getElem V default (e ⟨j, h⟩).isLt]
  have h1 := he ⟨j, h⟩
  rw [List.get_eq_getElem, List.get_eq_getElem] at h1
  exact h1

theorem permMap_inj {n m : Nat} (e : Fin n ≃ Fin m) {i j : Nat} (hi : i < n)
    (hj : j < n) (h : permMap e i = permMap e j) : i = j := by
  unfold permMap at h
  rw [dif_pos hi, dif_pos hj] at h
  have h2 : e ⟨i, hi⟩ = e ⟨j, hj⟩ := (Fin.val_eq_val _ _).1 h
  have h3 : (⟨i, hi⟩ : Fin n) = ⟨j, hj⟩ := e.injective h2
  exact congrArg Fin.val h3

theorem permMap_symm_cancel {n m : Nat} (e : Fin n ≃ Fin m) {j : Nat}
    (h : j < n) : permMap e.symm (permMap e j) = j := by
  unfold permMap
  rw [dif_pos h, dif_pos (e ⟨j, h⟩).isLt]
  have : (⟨(e ⟨j, h⟩ : Nat), (e ⟨j, h⟩).isLt⟩ : Fin m) = e ⟨j, h⟩ := rfl
  rw [this, Equiv.symm_apply_apply]

theorem he_symm {W V : List vec3f} (e : Fin W.length ≃ Fin V.length)
    (he : ∀ k : Fin W.length, W.get k = V.get (e k)) :
    ∀ k : Fin V.length, V.get k = W.get (e.symm k) := by
  intro k
  have h1 := he (e.symm k)
  rw [Equiv.apply_symm_apply] at h1
  exact h1.symm

theorem Adj_perm {W V : List vec3f} {eps : ℚ}
    (e : Fin W.length ≃ Fin V.length)
    (he : ∀ k : Fin W.length, W.get k = V.get (e k)) {i j : Nat}
    (hi : i < W.length) (hj : j < W.length) (h : Adj W eps i j) :
    Adj V eps (permMap e i) (permMap e j) := by
  obtain ⟨-, -, hne, heps, hd⟩ := h
  refine ⟨permMap_lt e hi, permMap_lt e hj, ?_, heps, ?_⟩
  · intro hcon
    exact hne (permMap_inj e hi hj hcon)
  · rw [← permMap_getD e he hi, ← permMap_getD e he hj]
    exact hd

theorem regionQuery_nodup (L : List vec3f) (eps : ℚ) (p : Nat) :
    (regionQuery L eps p).Nodup :=
  List.Nodup.filter _ (List.Nodup.filter _ (List.nodup_range _))

theorem regionQuery_length_perm {W V : List vec3f} {eps : ℚ}
    (e : Fin W.length ≃ Fin V.length)
    (he : ∀ k : Fin W.length, W.get k = V.get (e k)) {p : Nat}
    (hp : p < W.length) :
    (regionQuery W eps p).length = (regionQuery V eps (permMap e p)).length := by
  classical
  rw [← List.toFinset_card_of_nodup (regionQuery_nodup W eps p),
    ← List.toFinset_card_of_nodup
      (regionQuery_nodup V eps (permMap e p))]
  have hmemW : ∀ a, a ∈ (regionQuery W eps p).toFinset ↔
      a ∈ regionQuery W eps p := fun a => List.mem_toFinset
  have hmemV : ∀ a, a ∈ (regionQuery V eps (permMap e p)).toFinset ↔
      a ∈ regionQuery V eps (permMap e p) := fun a => List.mem_toFinset
  refine Finset.card_bij' (fun a _ => permMap e a) (fun b _ => permMap e.symm b)
    ?_ ?_ ?_ ?_
  · intro a ha
    rw [hmemW] at ha
    rw [hmemV]
    obtain ⟨halt, hne, heps, hd⟩ := mem_regionQuery.1 ha
    refine mem_regionQuery.2 ⟨permMap_lt e halt, ?_, heps, ?_⟩
    · intro hcon
      exact hne (permMap_inj e hp halt hcon)
    · rw [← permMap_getD e he halt, ← permMap_getD e he hp]
      exact hd
  · intro b hb
    rw [hmemV] at hb
    rw [hmemW]
    obtain ⟨hblt, hne, heps, hd⟩ := mem_regionQuery.1 hb
    have hsym := he_symm e he
    refine mem_regionQuery.2 ⟨permMap_lt e.symm hblt, ?_, heps, ?_⟩
    · show p ≠ permMap e.symm b
      intro hcon
      apply hne
      have h2 := permMap_symm_cancel e.symm hblt
      rw [Equiv.symm_symm] at h2
      rw [hcon, h2]
    · show dist2 (W.getD (permMap e.symm b) default) (W.getD p default) ≤ _
      rw [← permMap_getD e.symm hsym hblt]
      have hgp : V.getD (permMap e p) default = W.getD p default :=
        (permMap_getD e he hp).symm
      rw [← hgp]
      exact hd
  · intro a ha
    rw [hmemW] at ha
    exact permMap_symm_cancel e (regionQuery_lt ha)
  · intro b hb
    rw [hmemV] at hb
    have hblt : b < V.length := regionQuery_lt hb
    have h2 := permMap_symm_cancel e.symm hblt
    rwa [Equiv.symm_symm] at h2

end DBSCAN

namespace DBSCAN

theorem Core_perm {W V : List vec3f} {eps : ℚ} {mp : Nat}
    (e : Fin W.length ≃ Fin V.length)
    (he : ∀ k : Fin W.length, W.get k = V.get (e k)) {i : Nat}
    (hi : i < W.length) :
    Core W eps mp i ↔ Core V eps mp (permMap e i) := by
  unfold Core
  rw [regionQuery_length_perm e he hi]

theorem Reach_perm {W V : List vec3f} {eps : ℚ} {mp : Nat}
    (e : Fin W.length ≃ Fin V.length)
    (he : ∀ k : Fin W.length, W.get k = V.get (e k)) {i j : Nat}
    (hr : Reach W eps mp i j) :
    j < W.length → Reach V eps mp (permMap e i) (permMap e j) := by
  induction hr with
  | refl =>
    intro _
    exact Relation.ReflTransGen.refl
  | tail hr ed ihh =>
    intro hj
    have hb : _ < W.length := ed.2.2.1
    exact (ihh hb).tail ⟨(Core_perm e he hb).1 ed.1, (Core_perm e he hj).1
      ed.2.1, Adj_perm e he hb hj ed.2.2⟩

end DBSCAN

namespace chrono
namespace sensor

theorem clusterRecords_oid (proc : List RadarTrack) (c : List Nat) (oid : ℤ) :
    ∀ r ∈ clusterRecords proc c oid, r.objectID = oid := by
  intro r hr
  obtain ⟨idx, -, h⟩ := List.mem_map.1 hr
  rw [← h]

theorem filter_oid_flatMap_lt (proc : List RadarTrack) :
    ∀ (l : List (List Nat)) (n : Nat) (m : ℤ), m < (n : ℤ) + 1 →
      (((List.enumFrom n l).flatMap fun ic =>
        clusterRecords proc ic.2 ((ic.1 : ℤ) + 1)).filter
          fun r => decide (r.objectID = m)) = [] := by
  intro l
  induction l with
  | nil => intro n m h; rfl
  | cons c0 rest ih =>
    intro n m h
    rw [List.enumFrom_cons, List.flatMap_cons, List.filter_append]
    rw [List.filter_eq_nil_iff.2 ?_, ih (n + 1) m (by push_cast; omega)]
    · rfl
    · intro r hr
      rw [clusterRecords_oid proc c0 _ r hr]
      simp only [decide_eq_true_eq]
      omega

theorem filter_oid_flatMap (proc : List RadarTrack) :
    ∀ (l : List (List Nat)) (n k : Nat) (c : List Nat), l[k]? = some c →
      (((List.enumFrom n l).flatMap fun ic =>
        clusterRecords proc ic.2 ((ic.1 : ℤ) + 1)).filter
          fun r => decide (r.objectID = ((n + k : Nat) : ℤ) + 1)) =
        clusterRecords proc c (((n + k : Nat) : ℤ) + 1) := by
  intro l
  induction l with
  | nil =>
    intro n k c hk
    simp at hk
  | cons c0 rest ih =>
    intro n k c hk
    rw [List.enumFrom_cons, List.flatMap_cons, List.filter_append]
    cases k with
    | zero =>
      rw [List.getElem?_cons_zero] at hk
      have hc : c0 = c := Option.some_injective _ hk
      subst hc
      dsimp only
      rw [Nat.add_zero]
      rw [List.filter_eq_self.2 ?_, filter_oid_flatMap_lt proc rest (n + 1)
        ((n : ℤ) + 1) (by push_cast; omega), List.append_nil]
      intro r hr
      rw [clusterRecords_oid proc c0 _ r hr]
      simp only [decide_eq_true_eq]
    | succ k2 =>
      rw [List.getElem?_cons_succ] at hk
      dsimp only
      rw [List.filter_eq_nil_iff.2 ?_, List.nil_append]
      · have harith : (n + (k2 + 1) : Nat) = ((n + 1) + k2 : Nat) := by omega
        rw [harith]
        exact ih (n + 1) k2 c hk
      · intro r hr
        rw [clusterRecords_oid proc c0 _ r hr]
        simp only [decide_eq_true_eq]
        push_cast
        omega

theorem mem_enumFrom_of_getElem {α : Type} :
    ∀ (l : List α) (n k : Nat) (c : α), l[k]? = some c →
      (n + k, c) ∈ List.enumFrom n l := by
  intro l
  induction l with
  | nil =>
    intro n k c hk
    simp at hk
  | cons c0 rest ih =>
    intro n k c hk
    rw [List.enumFrom_cons]
    cases k with
    | zero =>
      rw [List.getElem?_cons_zero] at hk
      rw [Option.some_injective _ hk]
      exact List.mem_cons_self _ _
    | succ k2 =>
      rw [List.getElem?_cons_succ] at hk
      refine List.mem_cons_of_mem _ ?_
      have harith : (n + (k2 + 1) : Nat) = ((n + 1) + k2 : Nat) := by omega
      rw [harith]
      exact ih (n + 1) k2 c hk

theorem applyProcess_Buffer (buf : List RadarTrack) (eps : ℚ) (mp : Nat) :
    (applyProcess buf eps mp).Buffer =
      (DBSCAN.runClusters
        ((buf.filter fun r => decide (0 < r.intensity)).map fun r => r.xyz)
        eps mp).enum.flatMap fun ic =>
          clusterRecords (buf.filter fun r => decide (0 < r.intensity)) ic.2
            ((ic.1 : ℤ) + 1) := rfl

theorem applyProcess_members (buf : List RadarTrack) (eps : ℚ) (mp k : Nat)
    (c : List Nat)
    (hk : (DBSCAN.runClusters
        ((buf.filter fun r => decide (0 < r.intensity)).map fun r => r.xyz)
        eps mp)[k]? = some c) :
    ((applyProcess buf eps mp).Buffer.filter
        fun r => decide (r.objectID = (k : ℤ) + 1)) =
      clusterRecords (buf.filter fun r => decide (0 < r.intensity)) c
        ((k : ℤ) + 1) := by
  rw [applyProcess_Buffer]
  have h := filter_oid_flatMap (buf.filter fun r => decide (0 < r.intensity))
    (DBSCAN.runClusters
      ((buf.filter fun r => decide (0 < r.intensity)).map fun r => r.xyz)
      eps mp) 0 k c hk
  rw [Nat.zero_add] at h
  exact h

end sensor
end chrono

/-!
Claim theorems.
-/

open DBSCAN chrono.sensor

/-- Claim C1, counterexample: on candidates (0,0,0), (1,0,0), (2,0,0),
(3,0,0) with epsilon 1 and minPts 2, candidate 0 is a failed seed (visited,
unassigned) and a neighbor of candidate 1, the seed of the only cluster; the
claim says such a candidate is evaluated via its assigned flag and joins the
cluster, but the code skips every already-visited id popped from the
worklist, so candidate 0 stays unassigned and ends as noise. -/
theorem c1_counterexample :
    0 ∈ DBSCAN.regionQuery [⟨0,0,0⟩, ⟨1,0,0⟩, ⟨2,0,0⟩, ⟨3,0,0⟩] 1 1 ∧
    (DBSCAN.runState [⟨0,0,0⟩, ⟨1,0,0⟩, ⟨2,0,0⟩, ⟨3,0,0⟩] 1 2).clusters
      = [[1, 2]] ∧
    (DBSCAN.runState [⟨0,0,0⟩, ⟨1,0,0⟩, ⟨2,0,0⟩, ⟨3,0,0⟩] 1 2).visited.getD
      0 false = true ∧
    (DBSCAN.runState [⟨0,0,0⟩, ⟨1,0,0⟩, ⟨2,0,0⟩, ⟨3,0,0⟩] 1 2).assigned.getD
      0 false = false ∧
    0 ∈ (DBSCAN.runState [⟨0,0,0⟩, ⟨1,0,0⟩, ⟨2,0,0⟩, ⟨3,0,0⟩] 1 2).noise := by
  decide

/-- Claim C1, amended: a candidate popped from the expansion worklist that is
already visited is skipped entirely — the iteration only pops it, without
consulting its assigned flag, adding it to the cluster, or re-querying its
neighbors — and consequently every member of every cluster of a finished run
is a core point, so a visited-but-unassigned (non-core) candidate discovered
as a neighbor of an expanding cluster never joins it. -/
theorem c1_amended_visited_skip (fuel cid pid : Nat) (rest : List Nat)
    (st : DBSCAN) (hvis : Vis st pid) (V : List vec3f) (eps : ℚ) (mp : Nat)
    (hmp : 1 ≤ mp) (k i : Nat) (c : List Nat)
    (hk : (DBSCAN.runState V eps mp).clusters[k]? = some c) (hi : i ∈ c) :
    DBSCAN.expandLoop (fuel + 1) cid (pid :: rest) st =
      DBSCAN.expandLoop fuel cid rest st ∧
    Core V eps mp i := by
  constructor
  · exact expandLoop_cons_skip fuel cid pid rest st hvis
  · exact ((runState_mem_cluster_iff hmp).1 ⟨k, c, hk, hi⟩).2

/-- Witness for C1 at the counterexample input: skipping the visited id 0 in
a worklist, and member 1 of the produced cluster being core. -/
theorem c1_witness :
    DBSCAN.expandLoop 1 0 [0]
        (DBSCAN.runState [⟨0,0,0⟩, ⟨1,0,0⟩, ⟨2,0,0⟩, ⟨3,0,0⟩] 1 2) =
      DBSCAN.expandLoop 0 0 []
        (DBSCAN.runState [⟨0,0,0⟩, ⟨1,0,0⟩, ⟨2,0,0⟩, ⟨3,0,0⟩] 1 2) ∧
    Core [⟨0,0,0⟩, ⟨1,0,0⟩, ⟨2,0,0⟩, ⟨3,0,0⟩] 1 2 1 :=
  c1_amended_visited_skip 0 0 0 []
    (DBSCAN.runState [⟨0,0,0⟩, ⟨1,0,0⟩, ⟨2,0,0⟩, ⟨3,0,0⟩] 1 2) (by decide)
    [⟨0,0,0⟩, ⟨1,0,0⟩, ⟨2,0,0⟩, ⟨3,0,0⟩] 1 2 (by decide) 0 1 [1, 2]
    (by decide) (by decide)

/-- Claim C2, counterexample: on candidates (0,0,0), (0,0,0.5), (0,0,5) with
epsilon 1 and minPts 2 the pipeline produces zero clusters, not the claimed
single cluster with two valid returns: `regionQuery` excludes the point
itself, so each candidate has at most one neighbor and no candidate reaches
the minPts = 2 threshold. -/
theorem c2_counterexample :
    (applyProcess
      [⟨⟨0,0,0⟩, ⟨0,0,0⟩, 1, 0⟩, ⟨⟨0,0,(1:ℚ)/2⟩, ⟨0,0,0⟩, 1, 0⟩,
        ⟨⟨0,0,5⟩, ⟨0,0,0⟩, 1, 0⟩] 1 2).Num_clusters = 0 ∧
    ¬ ((applyProcess
      [⟨⟨0,0,0⟩, ⟨0,0,0⟩, 1, 0⟩, ⟨⟨0,0,(1:ℚ)/2⟩, ⟨0,0,0⟩, 1, 0⟩,
        ⟨⟨0,0,5⟩, ⟨0,0,0⟩, 1, 0⟩] 1 2).Num_clusters = 1 ∧
      (applyProcess
      [⟨⟨0,0,0⟩, ⟨0,0,0⟩, 1, 0⟩, ⟨⟨0,0,(1:ℚ)/2⟩, ⟨0,0,0⟩, 1, 0⟩,
        ⟨⟨0,0,5⟩, ⟨0,0,0⟩, 1, 0⟩] 1 2).Beam_return_count = 2 ∧
      (applyProcess
      [⟨⟨0,0,0⟩, ⟨0,0,0⟩, 1, 0⟩, ⟨⟨0,0,(1:ℚ)/2⟩, ⟨0,0,0⟩, 1, 0⟩,
        ⟨⟨0,0,5⟩, ⟨0,0,0⟩, 1, 0⟩] 1 2).invalid_returns = 1) := by
  decide

/-- Claim C2, amended: on the scenario input with epsilon 1 and minPts 2 the
pipeline drops all three candidates as noise (zero clusters, zero valid
returns, three invalid returns); the output the claim describes — one cluster
of p0 and p1 with objectID 1 and centroid (0,0,0.25), valid_returns 2,
invalid_returns 1, num_clusters 1 — is produced for this input exactly when
minPts = 1, because the neighborhood query excludes the queried point. -/
theorem c2_amended_scenario :
    applyProcess
      [⟨⟨0,0,0⟩, ⟨0,0,0⟩, 1, 0⟩, ⟨⟨0,0,(1:ℚ)/2⟩, ⟨0,0,0⟩, 1, 0⟩,
        ⟨⟨0,0,5⟩, ⟨0,0,0⟩, 1, 0⟩] 1 2 = ⟨[], 0, 3, 0, [], []⟩ ∧
    applyProcess
      [⟨⟨0,0,0⟩, ⟨0,0,0⟩, 1, 0⟩, ⟨⟨0,0,(1:ℚ)/2⟩, ⟨0,0,0⟩, 1, 0⟩,
        ⟨⟨0,0,5⟩, ⟨0,0,0⟩, 1, 0⟩] 1 1 =
      ⟨[⟨⟨0,0,0⟩, ⟨0,0,0⟩, 1, 1⟩, ⟨⟨0,0,(1:ℚ)/2⟩, ⟨0,0,0⟩, 1, 1⟩], 2, 1, 1,
        [⟨0,0,(1:ℚ)/4⟩], [⟨0,0,0⟩]⟩ := by
  decide

/-- Claim C3, counterexample: `Run` does not validate epsilon at all — with
epsilon = -1 (≤ 0) and a nonempty candidate set it succeeds, and with a valid
parameter pair on an empty candidate set it fails, both contradicting the
claimed failure condition. -/
theorem c3_counterexample :
    (DBSCAN.Run DBSCAN.new [⟨0,0,0⟩] (-1) 1).1 = ERROR_TYPE.SUCCESS ∧
    (DBSCAN.Run DBSCAN.new [] 1 1).1 = ERROR_TYPE.FAILED := by
  constructor
  · rfl
  · rfl

/-- Claim C3, amended: the clustering entry point fails exactly when the
candidate set is empty or minPts < 1; epsilon is never validated; the checks
happen before any clustering work, and on failure the object state is
returned untouched. -/
theorem c3_amended_validation (st0 : DBSCAN) (V : List vec3f) (eps : ℚ)
    (min : Nat) :
    ((DBSCAN.Run st0 V eps min).1 = ERROR_TYPE.FAILED ↔
      (V.length < 1 ∨ min < 1)) ∧
    (V.length < 1 ∨ min < 1 →
      DBSCAN.Run st0 V eps min = (ERROR_TYPE.FAILED, st0)) := by
  constructor
  · unfold DBSCAN.Run
    by_cases h1 : V.length < 1
    · rw [if_pos h1]
      constructor
      · intro _
        exact Or.inl h1
      · intro _
        rfl
    · rw [if_neg h1]
      by_cases h2 : min < 1
      · rw [if_pos h2]
        constructor
        · intro _
          exact Or.inr h2
        · intro _
          rfl
      · rw [if_neg h2]
        constructor
        · intro hcon
          exact ERROR_TYPE.noConfusion hcon
        · intro hor
          rcases hor with h | h
          · exact absurd h h1
          · exact absurd h h2
  · intro h
    unfold DBSCAN.Run
    rcases h with h1 | h2
    · rw [if_pos h1]
    · by_cases h1 : V.length < 1
      · rw [if_pos h1]
      · rw [if_neg h1, if_pos h2]

/-- Witness for C3: the failing branch at the empty candidate set leaves the
freshly constructed object untouched. -/
theorem c3_witness :
    DBSCAN.Run DBSCAN.new [] 1 1 = (ERROR_TYPE.FAILED, DBSCAN.new) :=
  (c3_amended_validation DBSCAN.new [] 1 1).2 (Or.inl (by decide))

/-- Claim C4: for a fixed candidate set and valid parameters the set-partition
produced by clustering is independent of the iteration order of the
candidates; only cluster numbering may differ.  Formally: if `W` is `V`
reindexed along a bijection `e` of the index ranges, then two candidates of
`W` share a cluster exactly when their images in `V` do, and a candidate of
`W` is noise exactly when its image in `V` is. -/
theorem c4_partition_order_independent (V W : List vec3f) (eps : ℚ)
    (mp : Nat) (hmp : 1 ≤ mp) (e : Fin W.length ≃ Fin V.length)
    (he : ∀ k : Fin W.length, W.get k = V.get (e k)) (i j : Nat)
    (hi : i < W.length) (hj : j < W.length) :
    (sameClusterIn (DBSCAN.runState W eps mp) i j ↔
      sameClusterIn (DBSCAN.runState V eps mp) (permMap e i) (permMap e j)) ∧
    (i ∈ (DBSCAN.runState W eps mp).noise ↔
      permMap e i ∈ (DBSCAN.runState V eps mp).noise) := by
  have hsym := he_symm e he
  constructor
  · unfold sameClusterIn
    rw [show (∃ (k : Nat) (c : List Nat),
        (DBSCAN.runState W eps mp).clusters[k]? = some c ∧ i ∈ c ∧ j ∈ c) ↔
        sameClusterIn (DBSCAN.runState W eps mp) i j from Iff.rfl,
      show (∃ (k : Nat) (c : List Nat),
        (DBSCAN.runState V eps mp).clusters[k]? = some c ∧
          permMap e i ∈ c ∧ permMap e j ∈ c) ↔
        sameClusterIn (DBSCAN.runState V eps mp) (permMap e i) (permMap e j)
        from Iff.rfl,
      runState_sameCluster_iff hmp, runState_sameCluster_iff hmp]
    constructor
    · rintro ⟨h1, h2, h3, h4, h5⟩
      exact ⟨permMap_lt e h1, permMap_lt e h2, (Core_perm e he h1).1 h3,
        (Core_perm e he h2).1 h4, Reach_perm e he h5 h2⟩
    · rintro ⟨h1, h2, h3, h4, h5⟩
      have hb := Reach_perm e.symm hsym h5 (permMap_lt e hj)
      rw [permMap_symm_cancel e hi, permMap_symm_cancel e hj] at hb
      exact ⟨hi, hj, (Core_perm e he hi).2 h3, (Core_perm e he hj).2 h4, hb⟩
  · rw [runState_noise_iff hmp, runState_noise_iff hmp]
    constructor
    · rintro ⟨-, h2⟩
      exact ⟨permMap_lt e hi, fun hc => h2 ((Core_perm e he hi).2 hc)⟩
    · rintro ⟨-, h2⟩
      exact ⟨hi, fun hc => h2 ((Core_perm e he hi).1 hc)⟩

/-- Witness for C4: the two-point candidate set (5,0,0), (0,0,0) against its
reversal, reindexed by the swap. -/
theorem c4_witness :
    (sameClusterIn (DBSCAN.runState [⟨5,0,0⟩, ⟨0,0,0⟩] 1 1) 0 1 ↔
      sameClusterIn (DBSCAN.runState [⟨0,0,0⟩, ⟨5,0,0⟩] 1 1)
        (permMap (Equiv.swap (0 : Fin 2) (1 : Fin 2)) 0)
        (permMap (Equiv.swap (0 : Fin 2) (1 : Fin 2)) 1)) ∧
    (0 ∈ (DBSCAN.runState [⟨5,0,0⟩, ⟨0,0,0⟩] 1 1).noise ↔
      permMap (Equiv.swap (0 : Fin 2) (1 : Fin 2)) 0 ∈
        (DBSCAN.runState [⟨0,0,0⟩, ⟨5,0,0⟩] 1 1).noise) :=
  c4_partition_order_independent [⟨0,0,0⟩, ⟨5,0,0⟩] [⟨5,0,0⟩, ⟨0,0,0⟩] 1 1
    (by decide) (Equiv.swap (0 : Fin 2) (1 : Fin 2)) (by decide) 0 1 (by decide)
    (by decide)

/-- Claim C5, counterexample: on candidates (0,0,0), (1,0,0), (2,0,0) with
epsilon 1 and minPts 2 the single produced cluster has one member, fewer than
minPts: the expansion only adds core points, so a cluster can stay below the
minPts threshold. -/
theorem c5_counterexample :
    DBSCAN.runClusters [⟨0,0,0⟩, ⟨1,0,0⟩, ⟨2,0,0⟩] 1 2 = [[1]] ∧
    ¬ (∀ (k : Nat) (c : List Nat),
        (DBSCAN.runClusters [⟨0,0,0⟩, ⟨1,0,0⟩, ⟨2,0,0⟩] 1 2)[k]? = some c →
        2 ≤ c.length) := by
  constructor
  · decide
  · intro h
    have h2 := h 0 [1] (by decide)
    exact absurd h2 (by decide)

/-- Claim C5, amended: every cluster produced by a run is nonempty (it always
contains at least its seed), so the per-cluster divisions by member count in
the radar filter never divide by zero; the stronger bound "member count ≥
minPts" claimed by the spec does not hold. -/
theorem c5_amended_nonempty (V : List vec3f) (eps : ℚ) (mp k : Nat)
    (c : List Nat) (hk : (DBSCAN.runClusters V eps mp)[k]? = some c) :
    1 ≤ c.length := by
  have hrc : DBSCAN.runClusters V eps mp =
      (DBSCAN.runState V eps mp).clusters := rfl
  rw [hrc] at hk
  by_cases h1 : V.length < 1
  · rw [runState_eq_fail₁ h1] at hk
    simp [DBSCAN.new] at hk
  · by_cases h2 : mp < 1
    · rw [runState_eq_fail₂ h2] at hk
      simp [DBSCAN.new] at hk
    · obtain ⟨r1, -, -⟩ := runState_success h1 h2
      have hne := r1.cl_ne k c hk
      have := List.length_pos.2 hne
      omega

/-- Witness for C5 at the counterexample input: the singleton cluster has at
least one member. -/
theorem c5_witness : 1 ≤ ([1] : List Nat).length :=
  c5_amended_nonempty [⟨0,0,0⟩, ⟨1,0,0⟩, ⟨2,0,0⟩] 1 2 0 [1] (by decide)

/-- Claim C6, counterexample: a singleton candidate set with minPts 1 yields
zero clusters, not one cluster containing all candidates — the single point
has no neighbors (the query excludes the point itself), so it fails the seed
test and ends as noise. -/
theorem c6_counterexample :
    DBSCAN.runClusters [⟨0,0,0⟩] 1 1 = [] ∧
    (DBSCAN.runClusters [⟨0,0,0⟩] 1 1).length ≠ 1 := by
  decide

/-- Claim C6, amended: for every candidate set with at least two candidates,
running the clusterer with minPts 1 and an epsilon that puts every pair of
candidates within range produces exactly one cluster containing all
candidates. -/
theorem c6_amended_one_cluster (V : List vec3f) (eps : ℚ)
    (h2 : 2 ≤ V.length) (heps : 0 ≤ eps)
    (hall : ∀ i j : Nat, i < V.length → j < V.length →
      dist2 (V.getD i default) (V.getD j default) ≤ eps ^ 2) :
    (DBSCAN.runClusters V eps 1).length = 1 ∧
    ∀ i : Nat, (i ∈ (DBSCAN.runClusters V eps 1).getD 0 [] ↔ i < V.length) := by
  have hrc : DBSCAN.runClusters V eps 1 =
      (DBSCAN.runState V eps 1).clusters := rfl
  have hcore : ∀ i, i < V.length → Core V eps 1 i := by
    intro i hi
    have hj : (if i = 0 then 1 else 0) ∈ regionQuery V eps i := by
      refine mem_regionQuery.2 ⟨?_, ?_, heps, ?_⟩
      · split <;> omega
      · split <;> omega
      · exact hall _ _ (by split <;> omega) hi
    unfold Core
    have := List.length_pos.2 (List.ne_nil_of_mem hj)
    omega
  have hadj : ∀ i j : Nat, i < V.length → j < V.length → i ≠ j →
      Adj V eps i j := by
    intro i j hi hj hne
    exact ⟨hi, hj, hne, heps, hall i j hi hj⟩
  have hreach : ∀ i j : Nat, i < V.length → j < V.length →
      Reach V eps 1 i j := by
    intro i j hi hj
    by_cases hne : i = j
    · rw [hne]
      exact Relation.ReflTransGen.refl
    · exact Relation.ReflTransGen.single
        ⟨hcore i hi, hcore j hj, hadj i j hi hj hne⟩
  have hV : ¬ V.length < 1 := by omega
  have hmp1 : ¬ (1 : Nat) < 1 := by omega
  obtain ⟨r1, r2, -⟩ := runState_success hV hmp1
  have h0asg : Asg (DBSCAN.runState V eps 1) 0 :=
    (runState_asg_iff (le_refl 1)).2 ⟨by omega, hcore 0 (by omega)⟩
  obtain ⟨k0, c0, hk0, h0c⟩ := (r1.asg_mem 0).1 h0asg
  have huniq : ∀ (k : Nat) (c : List Nat),
      (DBSCAN.runState V eps 1).clusters[k]? = some c → k = k0 := by
    intro k c hk
    obtain ⟨m, hm⟩ := List.exists_mem_of_ne_nil c (r1.cl_ne k c hk)
    have hmasg : Asg (DBSCAN.runState V eps 1) m :=
      (r1.asg_mem m).2 ⟨k, c, hk, hm⟩
    obtain ⟨hmlt, hmcore⟩ := (runState_asg_iff (le_refl 1)).1 hmasg
    have hsc : sameClusterIn (DBSCAN.runState V eps 1) m 0 :=
      (runState_sameCluster_iff (le_refl 1)).2
        ⟨hmlt, by omega, hmcore, hcore 0 (by omega),
          hreach m 0 hmlt (by omega)⟩
    obtain ⟨k2, c2, hk2, hmc2, h0c2⟩ := hsc
    have he1 : k = k2 := r1.cl_disj k k2 c c2 m hk hk2 hm hmc2
    have he2 : k2 = k0 := r1.cl_disj k2 k0 c2 c0 0 hk2 hk0 h0c2 h0c
    exact he1.trans he2
  have hk0lt : k0 < (DBSCAN.runState V eps 1).clusters.length := by
    rcases List.getElem?_eq_some.1 hk0 with ⟨hlt, -⟩
    exact hlt
  have hlen : (DBSCAN.runState V eps 1).clusters.length = 1 := by
    by_contra hne
    have hge : 2 ≤ (DBSCAN.runState V eps 1).clusters.length := by omega
    have ha0 : ∃ x, (DBSCAN.runState V eps 1).clusters[0]? = some x :=
      ⟨_, List.getElem?_eq_getElem (by omega)⟩
    have ha1 : ∃ x, (DBSCAN.runState V eps 1).clusters[1]? = some x :=
      ⟨_, List.getElem?_eq_getElem (by omega)⟩
    obtain ⟨x0, hx0⟩ := ha0
    obtain ⟨x1, hx1⟩ := ha1
    have h01 : (0 : Nat) = k0 := huniq 0 x0 hx0
    have h11 : (1 : Nat) = k0 := huniq 1 x1 hx1
    omega
  have hk00 : k0 = 0 := by omega
  rw [hrc]
  constructor
  · exact hlen
  · intro i
    have hgetD : (DBSCAN.runState V eps 1).clusters.getD 0 [] = c0 := by
      rw [List.getD_eq_getElem?_getD, ← hk00, hk0]
      rfl
    rw [hgetD]
    constructor
    · intro hic
      have hasg : Asg (DBSCAN.runState V eps 1) i :=
        (r1.asg_mem i).2 ⟨k0, c0, hk0, hic⟩
      exact ((runState_asg_iff (le_refl 1)).1 hasg).1
    · intro hilt
      have hasg : Asg (DBSCAN.runState V eps 1) i :=
        (runState_asg_iff (le_refl 1)).2 ⟨hilt, hcore i hilt⟩
      obtain ⟨k, c, hk, hic⟩ := (r1.asg_mem i).1 hasg
      have hkk : k = k0 := huniq k c hk
      rw [hkk, hk0] at hk
      rw [Option.some_injective _ hk]
      exact hic

/-- Witness for C6: two candidates within range of each other with minPts 1
form one cluster holding both. -/
theorem c6_witness :
    (DBSCAN.runClusters [⟨0,0,0⟩, ⟨1,0,0⟩] 2 1).length = 1 ∧
    ∀ i : Nat, (i ∈ (DBSCAN.runClusters [⟨0,0,0⟩, ⟨1,0,0⟩] 2 1).getD 0 [] ↔
      i < ([⟨0,0,0⟩, ⟨1,0,0⟩] : List vec3f).length) :=
  c6_amended_one_cluster [⟨0,0,0⟩, ⟨1,0,0⟩] 2 (by decide) (by decide)
    (by
      intro i j hi hj
      have hi2 : i = 0 ∨ i = 1 := by
        have : i < 2 := hi
        omega
      have hj2 : j = 0 ∨ j = 1 := by
        have : j < 2 := hj
        omega
      rcases hi2 with rfl | rfl <;> rcases hj2 with rfl | rfl <;> decide)

/-- Claim C7: for every query index into the candidate set and nonnegative
radius, the region query returns exactly the indices of candidates within
Euclidean distance ≤ epsilon of the query point (boundary inclusive,
squared-distance form), excluding the queried index itself by identity; a
distinct candidate at zero distance (duplicate coordinates) is included. -/
theorem c7_regionQuery_exact (V : List vec3f) (eps : ℚ) (pid j : Nat)
    (hpid : pid < V.length) (heps : 0 ≤ eps) :
    j ∈ regionQuery V eps pid ↔
      (j < V.length ∧ j ≠ pid ∧
        dist2 (V.getD j default) (V.getD pid default) ≤ eps ^ 2) := by
  rw [mem_regionQuery]
  constructor
  · rintro ⟨h1, h2, -, h4⟩
    exact ⟨h1, fun hc => h2 hc.symm, h4⟩
  · rintro ⟨h1, h2, h3⟩
    exact ⟨h1, fun hc => h2 hc.symm, heps, h3⟩

/-- Witness for C7 on a candidate set with duplicate coordinates: the
distinct element at zero distance is reported as a neighbor. -/
theorem c7_witness :
    (1 ∈ regionQuery [⟨1,2,3⟩, ⟨1,2,3⟩] 1 0 ↔
      (1 < ([⟨1,2,3⟩, ⟨1,2,3⟩] : List vec3f).length ∧ (1 : Nat) ≠ 0 ∧
        dist2 (([⟨1,2,3⟩, ⟨1,2,3⟩] : List vec3f).getD 1 default)
          (([⟨1,2,3⟩, ⟨1,2,3⟩] : List vec3f).getD 0 default) ≤ 1 ^ 2)) ∧
    1 ∈ regionQuery [⟨1,2,3⟩, ⟨1,2,3⟩] 1 0 :=
  ⟨c7_regionQuery_exact [⟨1,2,3⟩, ⟨1,2,3⟩] 1 0 1 (by decide) (by decide),
    by decide⟩

/-- Claim C8: for every frame and every cluster index, the published centroid
equals the unweighted arithmetic mean of the positions of the output records
carrying that cluster's objectID, and the published average velocity equals
the unweighted arithmetic mean of their velocities (exact over rationals,
hence within every positive tolerance). -/
theorem c8_cluster_means (buf : List RadarTrack) (eps : ℚ) (mp k : Nat)
    (c : List Nat)
    (hk : (DBSCAN.runClusters
        ((buf.filter fun r => decide (0 < r.intensity)).map fun r => r.xyz)
        eps mp)[k]? = some c) :
    (applyProcess buf eps mp).centroids[k]? =
      some (divV
        (sumV (((applyProcess buf eps mp).Buffer.filter
          fun r => decide (r.objectID = (k : ℤ) + 1)).map fun r => r.xyz))
        ((applyProcess buf eps mp).Buffer.filter
          fun r => decide (r.objectID = (k : ℤ) + 1)).length) ∧
    (applyProcess buf eps mp).avg_velocity[k]? =
      some (divV
        (sumV (((applyProcess buf eps mp).Buffer.filter
          fun r => decide (r.objectID = (k : ℤ) + 1)).map fun r => r.vel))
        ((applyProcess buf eps mp).Buffer.filter
          fun r => decide (r.objectID = (k : ℤ) + 1)).length) := by
  have hmem := applyProcess_members buf eps mp k c hk
  rw [hmem]
  have hx : ((clusterRecords (buf.filter fun r => decide (0 < r.intensity)) c
      ((k : ℤ) + 1)).map fun r => r.xyz) =
      c.map fun idx =>
        ((buf.filter fun r => decide (0 < r.intensity)).getD idx
          default).xyz := by
    unfold clusterRecords
    rw [List.map_map]
    rfl
  have hv : ((clusterRecords (buf.filter fun r => decide (0 < r.intensity)) c
      ((k : ℤ) + 1)).map fun r => r.vel) =
      c.map fun idx =>
        ((buf.filter fun r => decide (0 < r.intensity)).getD idx
          default).vel := by
    unfold clusterRecords
    rw [List.map_map]
    rfl
  have hlen : (clusterRecords (buf.filter fun r => decide (0 < r.intensity)) c
      ((k : ℤ) + 1)).length = c.length := by
    unfold clusterRecords
    rw [List.length_map]
  constructor
  · have hcent : (applyProcess buf eps mp).centroids =
        (DBSCAN.runClusters
          ((buf.filter fun r => decide (0 < r.intensity)).map fun r => r.xyz)
          eps mp).map fun c2 => divV
            (sumV (c2.map fun idx =>
              ((buf.filter fun r => decide (0 < r.intensity)).getD idx
                default).xyz)) c2.length := rfl
    rw [hcent, List.getElem?_map, hk, hx, hlen]
    rfl
  · have havg : (applyProcess buf eps mp).avg_velocity =
        (DBSCAN.runClusters
          ((buf.filter fun r => decide (0 < r.intensity)).map fun r => r.xyz)
          eps mp).map fun c2 => divV
            (sumV (c2.map fun idx =>
              ((buf.filter fun r => decide (0 < r.intensity)).getD idx
                default).vel)) c2.length := rfl
    rw [havg, List.getElem?_map, hk, hv, hlen]
    rfl

/-- Witness for C8 on the scenario frame with minPts 1: cluster 0 holds the
two close candidates, and the published aggregates are the means of their
members. -/
theorem c8_witness :
    (applyProcess
      [⟨⟨0,0,0⟩, ⟨0,0,0⟩, 1, 0⟩, ⟨⟨0,0,(1:ℚ)/2⟩, ⟨0,0,0⟩, 1, 0⟩,
        ⟨⟨0,0,5⟩, ⟨0,0,0⟩, 1, 0⟩] 1 1).centroids[0]? =
      some (divV
        (sumV (((applyProcess
          [⟨⟨0,0,0⟩, ⟨0,0,0⟩, 1, 0⟩, ⟨⟨0,0,(1:ℚ)/2⟩, ⟨0,0,0⟩, 1, 0⟩,
            ⟨⟨0,0,5⟩, ⟨0,0,0⟩, 1, 0⟩] 1 1).Buffer.filter
          fun r => decide (r.objectID = (0 : ℤ) + 1)).map fun r => r.xyz))
        ((applyProcess
          [⟨⟨0,0,0⟩, ⟨0,0,0⟩, 1, 0⟩, ⟨⟨0,0,(1:ℚ)/2⟩, ⟨0,0,0⟩, 1, 0⟩,
            ⟨⟨0,0,5⟩, ⟨0,0,0⟩, 1, 0⟩] 1 1).Buffer.filter
          fun r => decide (r.objectID = (0 : ℤ) + 1)).length) ∧
    (applyProcess
      [⟨⟨0,0,0⟩, ⟨0,0,0⟩, 1, 0⟩, ⟨⟨0,0,(1:ℚ)/2⟩, ⟨0,0,0⟩, 1, 0⟩,
        ⟨⟨0,0,5⟩, ⟨0,0,0⟩, 1, 0⟩] 1 1).avg_velocity[0]? =
      some (divV
        (sumV (((applyProcess
          [⟨⟨0,0,0⟩, ⟨0,0,0⟩, 1, 0⟩, ⟨⟨0,0,(1:ℚ)/2⟩, ⟨0,0,0⟩, 1, 0⟩,
            ⟨⟨0,0,5⟩, ⟨0,0,0⟩, 1, 0⟩] 1 1).Buffer.filter
          fun r => decide (r.objectID = (0 : ℤ) + 1)).map fun r => r.vel))
        ((applyProcess
          [⟨⟨0,0,0⟩, ⟨0,0,0⟩, 1, 0⟩, ⟨⟨0,0,(1:ℚ)/2⟩, ⟨0,0,0⟩, 1, 0⟩,
            ⟨⟨0,0,5⟩, ⟨0,0,0⟩, 1, 0⟩] 1 1).Buffer.filter
          fun r => decide (r.objectID = (0 : ℤ) + 1)).length) :=
  c8_cluster_means
    [⟨⟨0,0,0⟩, ⟨0,0,0⟩, 1, 0⟩, ⟨⟨0,0,(1:ℚ)/2⟩, ⟨0,0,0⟩, 1, 0⟩,
      ⟨⟨0,0,5⟩, ⟨0,0,0⟩, 1, 0⟩] 1 1 0 [0, 1] (by decide)

/-- Claim C9: every record published in the output buffer has objectID in
[1, num_clusters] (never 0), and member i of cluster k (0-based) is published
with objectID k+1; candidates in no cluster are dropped from the output
entirely (the buffer holds cluster members only). -/
theorem c9_objectID_range (buf : List RadarTrack) (eps : ℚ) (mp : Nat) :
    (∀ r ∈ (applyProcess buf eps mp).Buffer,
      1 ≤ r.objectID ∧
        r.objectID ≤ ((applyProcess buf eps mp).Num_clusters : ℤ)) ∧
    (∀ (k : Nat) (c : List Nat),
      (DBSCAN.runClusters
        ((buf.filter fun r => decide (0 < r.intensity)).map fun r => r.xyz)
        eps mp)[k]? = some c →
      ∀ i ∈ c,
        { (buf.filter fun r => decide (0 < r.intensity)).getD i default with
            objectID := (k : ℤ) + 1 } ∈ (applyProcess buf eps mp).Buffer) := by
  constructor
  · intro r hr
    rw [applyProcess_Buffer] at hr
    obtain ⟨ic, hic, hric⟩ := List.mem_flatMap.1 hr
    obtain ⟨i2, c2⟩ := ic
    have hoid : r.objectID = (i2 : ℤ) + 1 := clusterRecords_oid _ _ _ r hric
    have hbound := List.mem_enumFrom hic
    have hnum : (applyProcess buf eps mp).Num_clusters =
        (DBSCAN.runClusters
          ((buf.filter fun r => decide (0 < r.intensity)).map fun r => r.xyz)
          eps mp).length := rfl
    rw [hoid, hnum]
    obtain ⟨-, hlt, -⟩ := hbound
    rw [Nat.zero_add] at hlt
    omega
  · intro k c hk i hi
    rw [applyProcess_Buffer]
    refine List.mem_flatMap.2 ⟨(k, c), ?_, ?_⟩
    · have h1 := mem_enumFrom_of_getElem _ 0 k c hk
      rw [Nat.zero_add] at h1
      exact h1
    · exact List.mem_map.2 ⟨i, hi, rfl⟩

/-- Witness for C9 on the scenario frame with minPts 1: the first published
record has objectID between 1 and the cluster count. -/
theorem c9_witness :
    1 ≤ (⟨⟨0,0,0⟩, ⟨0,0,0⟩, (1:ℚ), (1:ℤ)⟩ : RadarTrack).objectID ∧
    (⟨⟨0,0,0⟩, ⟨0,0,0⟩, (1:ℚ), (1:ℤ)⟩ : RadarTrack).objectID ≤
      ((applyProcess
        [⟨⟨0,0,0⟩, ⟨0,0,0⟩, 1, 0⟩, ⟨⟨0,0,(1:ℚ)/2⟩, ⟨0,0,0⟩, 1, 0⟩,
          ⟨⟨0,0,5⟩, ⟨0,0,0⟩, 1, 0⟩] 1 1).Num_clusters : ℤ) :=
  (c9_objectID_range
    [⟨⟨0,0,0⟩, ⟨0,0,0⟩, 1, 0⟩, ⟨⟨0,0,(1:ℚ)/2⟩, ⟨0,0,0⟩, 1, 0⟩,
      ⟨⟨0,0,5⟩, ⟨0,0,0⟩, 1, 0⟩] 1 1).1
    ⟨⟨0,0,0⟩, ⟨0,0,0⟩, (1:ℚ), (1:ℤ)⟩ (by decide)

/-- Claim C10: the filter's `Apply` invokes the clusterer with the hardcoded
local constants epsilon = 1 and minimum_points = 5; `Apply` takes no
configuration input, so no external value reaches the clustering call, and
its cluster count is that of `Run` at exactly those parameters. -/
theorem c10_hardcoded_params :
    ∀ buf : List RadarTrack, Apply buf = applyProcess buf 1 5 ∧
      (Apply buf).Num_clusters = (DBSCAN.runClusters
        ((buf.filter fun r => decide (0 < r.intensity)).map fun r => r.xyz)
        1 5).length :=
  fun buf => ⟨rfl, rfl⟩
